import Mathlib

/-!
Shallow embedding of the DuckDB pipeline executor
(`src/parallel/pipeline_executor.cpp`) and checkpoint manager
(`src/storage/checkpoint_manager.cpp`), together with theorems settling the
specification claims about them.

Modelling conventions:
* a `DataChunk` is modelled as the list of its rows (`Chunk := List Nat`);
  `Reset` is `[]`, `Append` is list append, `Move` transfers the rows,
  `Reference` copies them, `size()` is `List.length`;
* machine loops are modelled with explicit fuel; running out of fuel is an
  error, so every `.ok` result corresponds to an actual terminating run;
* C++ exceptions (`InternalException`, `InterruptException`) and `D_ASSERT`
  assertion failures are modelled as `Except.error`;
* physical operators, sinks and sources are external collaborators; they are
  modelled as state-transforming functions supplied by the pipeline.
-/

namespace DuckDB

/-- `OperatorResultType` from the source (`NEED_MORE_INPUT`,
`HAVE_MORE_OUTPUT`, `FINISHED`). -/
inductive OperatorResultType where
  | NEED_MORE_INPUT
  | HAVE_MORE_OUTPUT
  | FINISHED
deriving DecidableEq, Repr

/-- `SinkResultType` from the source (`NEED_MORE_INPUT`, `FINISHED`). -/
inductive SinkResultType where
  | NEED_MORE_INPUT
  | FINISHED
deriving DecidableEq, Repr

/-- A row batch (`DataChunk`), modelled as its list of rows. -/
abbrev Chunk := List Nat

/-- `LogicalType`: scalar variants plus the nested variants `LIST`, `MAP`
and `STRUCT`.  Only the type id and the child types are inspected by
`CanCacheType`, so child names are omitted. -/
inductive LogicalType where
  | BOOLEAN
  | INTEGER
  | BIGINT
  | DOUBLE
  | VARCHAR
  | LIST (child : LogicalType)
  | MAP (children : List LogicalType)
  | STRUCT (children : List LogicalType)

mutual

/-- `PipelineExecutor::CanCacheType` (pipeline_executor.cpp:149-166):
`LIST` and `MAP` cannot be cached; a `STRUCT` can be cached iff every child
type can; every other type can be cached. -/
def canCacheType : LogicalType → Bool
  | .LIST _ => false
  | .MAP _ => false
  | .STRUCT children => canCacheTypeList children
  | _ => true

/-- The child-type loop inside `CanCacheType`'s `STRUCT` case. -/
def canCacheTypeList : List LogicalType → Bool
  | [] => true
  | t :: ts => canCacheType t && canCacheTypeList ts

end

/-- The claim's wording of cacheability: a type is cacheable iff it is not
`LIST` and not `MAP`, and a `STRUCT` is cacheable iff all of its child types
are recursively cacheable. -/
inductive CacheableSpec : LogicalType → Prop where
  | base (t : LogicalType) :
      (∀ c, t ≠ .LIST c) → (∀ cs, t ≠ .MAP cs) → (∀ cs, t ≠ .STRUCT cs) →
      CacheableSpec t
  | struct_all (children : List LogicalType) :
      (∀ c ∈ children, CacheableSpec c) → CacheableSpec (.STRUCT children)

/-- Modelled from the spec: `STANDARD_VECTOR_SIZE` is a compile-time vector
width constant, "typically 1024 or 2048" (the defining header is not part of
the sampled sources). -/
def STANDARD_VECTOR_SIZE : Nat := 1024

/-- Modelled from the spec: `CACHE_THRESHOLD` is "a small constant
(implementation-defined, typically VECTOR_SIZE/8)" (the defining header is
not part of the sampled sources). -/
def CACHE_THRESHOLD : Nat := STANDARD_VECTOR_SIZE / 8

/-- A physical operator, reduced to the capabilities the executor uses:
`Execute` (modelled as a pure state transformer producing a result code, the
output chunk and the updated operator state), `RequiresCache`, `GetTypes`,
and `GetOperatorState` (the initial per-executor state). -/
structure Operator (σ : Type) where
  exec : Chunk → σ → OperatorResultType × Chunk × σ
  requiresCache : Bool
  types : List LogicalType
  initState : σ

/-- A sink, reduced to `Sink` (modelled on the thread-local sink state) and
`SinkOrderMatters`.  `Combine` merges into the shared global sink state,
which is outside this model; the executor theorems only record that it was
invoked. -/
structure Sink (τ : Type) where
  sinkFn : Chunk → τ → SinkResultType × τ
  sinkOrderMatters : Bool
  initLocal : τ

/-- A source, reduced to `GetData` on its thread-local source state. -/
structure Source (ρ : Type) where
  getData : ρ → Chunk × ρ
  initLocal : ρ

/-- A pipeline: source, ordered operator chain, optional sink. -/
structure Pipeline (σ τ ρ : Type) where
  source : Source ρ
  operators : List (Operator σ)
  sink : Option (Sink τ)

/-- The per-thread mutable state of a `PipelineExecutor`.
`local_sink_state` is an `Option` because `PushFinalize` resets it. -/
structure ExecState (σ τ ρ : Type) where
  intermediate_chunks : List Chunk
  final_chunk : Chunk
  intermediate_states : List σ
  cached_chunks : List (Option Chunk)
  in_process_operators : List Nat
  finished_processing : Bool
  finalized : Bool
  local_sink_state : Option τ
  local_source_state : ρ
deriving DecidableEq, Repr

/-- One operator invocation observed during `Execute`: which operator ran,
the `prev_chunk` it was given, the result code it returned and the chunk it
produced (before cache interposition). -/
structure OpEvent where
  operator_idx : Nat
  prev_chunk : Chunk
  result : OperatorResultType
  out_chunk : Chunk
deriving DecidableEq, Repr

/-- One cache-flush call made by `PushFinalize`: the cache slot index, the
chunk that was flushed, and the `initial_idx` passed to
`ExecutePushInternal`. -/
structure FlushCall where
  cache_idx : Nat
  chunk : Chunk
  initial_idx : Nat
deriving DecidableEq, Repr

/-- The state mutated by the `Execute` loop: the intermediate chunks, the
result chunk, the operator states, the cache slots, the `in_process_operators`
stack (head = top) and the trace of operator invocations. -/
structure LoopState (σ : Type) where
  ics : List Chunk
  res : Chunk
  states : List σ
  cached : List (Option Chunk)
  stack : List Nat
  trace : List OpEvent
deriving DecidableEq, Repr

/-- `PipelineExecutor::CacheChunk` (pipeline_executor.cpp:168-187) on one
cache slot: given the operator's input chunk, its output chunk and the slot,
returns the updated output chunk and slot.  The whole body is guarded by
`#if STANDARD_VECTOR_SIZE >= 128`. -/
def cacheChunk (prev_chunk current_chunk : Chunk) (cache : Option Chunk) :
    Chunk × Option Chunk :=
  if 128 ≤ STANDARD_VECTOR_SIZE then
    match cache with
    | none => (current_chunk, none)
    | some chunk_cache =>
      if CACHE_THRESHOLD ≤ prev_chunk.length ∧
          current_chunk.length < CACHE_THRESHOLD then
        -- we have filtered out a significant amount of tuples:
        -- add this chunk to the cache
        let chunk_cache := chunk_cache ++ current_chunk
        if STANDARD_VECTOR_SIZE - CACHE_THRESHOLD ≤ chunk_cache.length then
          -- chunk cache full: current_chunk.Move(chunk_cache), reinitialize
          (chunk_cache, some [])
        else
          -- chunk cache not full: current_chunk.Reset()
          ([], some chunk_cache)
      else (current_chunk, some chunk_cache)
  else (current_chunk, cache)

/-- `PipelineExecutor::GoToSource` (pipeline_executor.cpp:227-238): start at
`initial_idx` unless an in-process operator exists, in which case pop it.
The `D_ASSERT(current_idx >= initial_idx)` is checked by the callers. -/
def goToSource (in_process : List Nat) (initial_idx : Nat) : Nat × List Nat :=
  match in_process with
  | [] => (initial_idx, [])
  | top :: rest => (top, rest)

/-- Write a chunk through the `current_chunk` reference of the `Execute`
loop: the result chunk if `current_idx` is past the intermediate chunks,
otherwise `intermediate_chunks[current_idx]`.  (`List.set` preserves length,
so recomputing the test per write agrees with the source's single
reference.) -/
def writeChunk (ls : LoopState σ) (current_idx : Nat) (c : Chunk) :
    LoopState σ :=
  if ls.ics.length ≤ current_idx then { ls with res := c }
  else { ls with ics := ls.ics.set current_idx c }

@[simp]
theorem writeChunk_states (ls : LoopState σ) (i : Nat) (c : Chunk) :
    (writeChunk ls i c).states = ls.states := by
  unfold writeChunk; split <;> rfl

@[simp]
theorem writeChunk_cached (ls : LoopState σ) (i : Nat) (c : Chunk) :
    (writeChunk ls i c).cached = ls.cached := by
  unfold writeChunk; split <;> rfl

@[simp]
theorem writeChunk_stack (ls : LoopState σ) (i : Nat) (c : Chunk) :
    (writeChunk ls i c).stack = ls.stack := by
  unfold writeChunk; split <;> rfl

@[simp]
theorem writeChunk_trace (ls : LoopState σ) (i : Nat) (c : Chunk) :
    (writeChunk ls i c).trace = ls.trace := by
  unfold writeChunk; split <;> rfl

@[simp]
theorem writeChunk_ics_length (ls : LoopState σ) (i : Nat) (c : Chunk) :
    (writeChunk ls i c).ics.length = ls.ics.length := by
  unfold writeChunk; split <;> simp

theorem writeChunk_ics_getD (ls : LoopState σ) (i j : Nat) (c : Chunk)
    (h : j ≠ i) : (writeChunk ls i c).ics.getD j [] = ls.ics.getD j [] := by
  unfold writeChunk
  split
  · rfl
  · show ((ls.ics.set i c).get? j).getD [] = (ls.ics.get? j).getD []
    rw [List.get?_set_ne _ _ (by omega : i ≠ j)]

/-- The loop of `PipelineExecutor::Execute` (pipeline_executor.cpp:255-313),
with explicit fuel.  `intr` models `context.client.interrupted`, checked at
the top of each iteration (and by the operator profiler span). -/
def executeLoop (intr : Bool) (operators : List (Operator σ)) (input : Chunk)
    (initial_idx : Nat) :
    Nat → Nat → LoopState σ → Except String (OperatorResultType × LoopState σ)
  | 0, _, _ => .error "fuel exhausted"
  | fuel + 1, current_idx, ls =>
    if intr then .error "InterruptException" else
    -- select the chunk to write to and Reset() it
    let ls1 := writeChunk ls current_idx []
    if current_idx = initial_idx then
      -- we went back to the source: we need more input
      .ok (.NEED_MORE_INPUT, ls1)
    else
      match operators.get? (current_idx - 1), ls1.states.get? (current_idx - 1) with
      | some op, some opstate =>
        let prev_chunk :=
          if current_idx = initial_idx + 1 then input
          else ls1.ics.getD (current_idx - 1) []
        let (r, out, opstate') := op.exec prev_chunk opstate
        let ls2 := { ls1 with
          states := ls1.states.set (current_idx - 1) opstate'
          stack := if r = .HAVE_MORE_OUTPUT then current_idx :: ls1.stack
                   else ls1.stack
          trace := ls1.trace ++ [⟨current_idx - 1, prev_chunk, r, out⟩] }
        if r = .FINISHED then
          -- D_ASSERT(current_chunk.size() == 0)
          if out = [] then .ok (.FINISHED, ls2)
          else .error "D_ASSERT: non-empty chunk on FINISHED"
        else
          let (cur, cacheSlot) :=
            cacheChunk prev_chunk out (ls2.cached.getD (current_idx - 1) none)
          let ls3 :=
            writeChunk { ls2 with
              cached := ls2.cached.set (current_idx - 1) cacheSlot }
              current_idx cur
          if cur = [] then
            -- no output from this operator
            if current_idx = initial_idx then
              .ok (if ls3.stack = [] then .NEED_MORE_INPUT
                   else .HAVE_MORE_OUTPUT, ls3)
            else
              let (ci, stack') := goToSource ls3.stack initial_idx
              if ci < initial_idx then .error "D_ASSERT: current_idx >= initial_idx"
              else executeLoop intr operators input initial_idx fuel ci
                     { ls3 with stack := stack' }
          else
            -- we got output: continue to the next operator
            if operators.length < current_idx + 1 then
              .ok (if ls3.stack = [] then .NEED_MORE_INPUT
                   else .HAVE_MORE_OUTPUT, ls3)
            else executeLoop intr operators input initial_idx fuel
                   (current_idx + 1) ls3
      | _, _ => .error "operator index out of range"

/-- `PipelineExecutor::Execute(input, result, initial_idx)`
(pipeline_executor.cpp:240-254 plus the loop): the Execute state machine.
The caller's `result` chunk is `ls.res`. -/
def pipelineExecute (fuel : Nat) (intr : Bool) (operators : List (Operator σ))
    (input : Chunk) (initial_idx : Nat) (ls : LoopState σ) :
    Except String (OperatorResultType × LoopState σ) :=
  if input.length = 0 then .ok (.NEED_MORE_INPUT, ls)
  else if operators.isEmpty then .error "D_ASSERT: operators non-empty"
  else
    let (ci, stack') := goToSource ls.stack initial_idx
    if ci < initial_idx then .error "D_ASSERT: current_idx >= initial_idx"
    else
      let ci := if ci = initial_idx then ci + 1 else ci
      if operators.length < ci then
        -- result.Reference(input)
        .ok (.NEED_MORE_INPUT, { ls with stack := stack', res := input })
      else executeLoop intr operators input initial_idx fuel ci
             { ls with stack := stack' }

/-- Build the `LoopState` for a call `Execute(input, final_chunk, initial_idx)`
from `ExecutePushInternal`: the result chunk is the (already reset)
`final_chunk`. -/
def toLoop (st : ExecState σ τ ρ) : LoopState σ :=
  { ics := st.intermediate_chunks
    res := st.final_chunk
    states := st.intermediate_states
    cached := st.cached_chunks
    stack := st.in_process_operators
    trace := [] }

/-- Store the `LoopState` back into the executor state after `Execute`
returned (the result chunk was `final_chunk`). -/
def fromLoop (st : ExecState σ τ ρ) (ls : LoopState σ) : ExecState σ τ ρ :=
  { st with
    intermediate_chunks := ls.ics
    final_chunk := ls.res
    intermediate_states := ls.states
    cached_chunks := ls.cached
    in_process_operators := ls.stack }

/-- The `while (true)` loop of `PipelineExecutor::ExecutePushInternal`
(pipeline_executor.cpp:100-124).  Returns the result code, the updated
executor state, the trace of operator invocations and the list of chunks
delivered to `sink.Sink`. -/
def pushLoop (intr : Bool) (pipe : Pipeline σ τ ρ) (sink : Sink τ)
    (input : Chunk) (initial_idx : Nat) :
    Nat → ExecState σ τ ρ → List OpEvent → List Chunk →
    Except String (OperatorResultType × ExecState σ τ ρ × List OpEvent × List Chunk)
  | 0, _, _, _ => .error "fuel exhausted"
  | fuel + 1, st, tr, sunk =>
    let step :
        Except String (OperatorResultType × ExecState σ τ ρ × List OpEvent) :=
      if pipe.operators.isEmpty then .ok (.NEED_MORE_INPUT, st, tr)
      else
        -- final_chunk.Reset(); result = Execute(input, final_chunk, initial_idx)
        let st0 := { st with final_chunk := [] }
        match pipelineExecute fuel intr pipe.operators input initial_idx
                (toLoop st0) with
        | .error e => .error e
        | .ok (r, ls) => .ok (r, fromLoop st0 ls, tr ++ ls.trace)
    match step with
    | .error e => .error e
    | .ok (r, st1, tr1) =>
      if r = .FINISHED then .ok (.FINISHED, st1, tr1, sunk)
      else
        let sink_chunk := if pipe.operators.isEmpty then input
                          else st1.final_chunk
        if sink_chunk.length > 0 then
          -- ScopedOperatorProfiler checks for interrupts on entry
          if intr then .error "InterruptException"
          else
            match st1.local_sink_state with
            | none => .error "null local_sink_state"
            | some lss =>
              let (sres, lss') := sink.sinkFn sink_chunk lss
              let st2 := { st1 with local_sink_state := some lss' }
              let sunk1 := sunk ++ [sink_chunk]
              if sres = .FINISHED then .ok (.FINISHED, st2, tr1, sunk1)
              else if r = .NEED_MORE_INPUT then .ok (.NEED_MORE_INPUT, st2, tr1, sunk1)
              else pushLoop intr pipe sink input initial_idx fuel st2 tr1 sunk1
        else
          if r = .NEED_MORE_INPUT then .ok (.NEED_MORE_INPUT, st1, tr1, sunk)
          else pushLoop intr pipe sink input initial_idx fuel st1 tr1 sunk

/-- `PipelineExecutor::ExecutePushInternal` (pipeline_executor.cpp:95-126). -/
def executePushInternal (fuel : Nat) (intr : Bool) (pipe : Pipeline σ τ ρ)
    (st : ExecState σ τ ρ) (input : Chunk) (initial_idx : Nat) :
    Except String (OperatorResultType × ExecState σ τ ρ × List OpEvent × List Chunk) :=
  match pipe.sink with
  | none => .error "D_ASSERT: pipeline.sink"
  | some sink =>
    if input.length = 0 then .ok (.NEED_MORE_INPUT, st, [], [])
    else pushLoop intr pipe sink input initial_idx fuel st [] []

/-- `PipelineExecutor::ExecutePush` (pipeline_executor.cpp:91-93): the public
push entry point, `ExecutePushInternal` with `initial_idx = 0`. -/
def executePush (fuel : Nat) (intr : Bool) (pipe : Pipeline σ τ ρ)
    (st : ExecState σ τ ρ) (input : Chunk) :
    Except String (OperatorResultType × ExecState σ τ ρ × List OpEvent × List Chunk) :=
  executePushInternal fuel intr pipe st input 0

/-- The cache-flush loop of `PipelineExecutor::PushFinalize`
(pipeline_executor.cpp:136-141), iterating `i` over the cache slots;
`rem` counts the remaining slots.  Each flushed slot is afterwards reset
(`cached_chunks[i].reset()` nulls the `unique_ptr`). -/
def flushCachesAux (fuel : Nat) (intr : Bool) (pipe : Pipeline σ τ ρ) :
    Nat → Nat → ExecState σ τ ρ →
    Except String (ExecState σ τ ρ × List FlushCall)
  | 0, _, st => .ok (st, [])
  | rem + 1, i, st =>
    match st.cached_chunks.get? i with
    | some (some c) =>
      if 0 < c.length then
        match executePushInternal fuel intr pipe st c (i + 1) with
        | .error e => .error e
        | .ok (_, st1, _, _) =>
          let st2 := { st1 with cached_chunks := st1.cached_chunks.set i none }
          match flushCachesAux fuel intr pipe rem (i + 1) st2 with
          | .error e => .error e
          | .ok (st3, fs) => .ok (st3, ⟨i, c, i + 1⟩ :: fs)
      else flushCachesAux fuel intr pipe rem (i + 1) st
    | _ => flushCachesAux fuel intr pipe rem (i + 1) st

/-- `PipelineExecutor::PushFinalize` (pipeline_executor.cpp:128-147).
Returns the updated state, the cache-flush calls made, and whether
`sink.Combine` was invoked (it always is on success; local sink state is
reset afterwards). -/
def pushFinalize (fuel : Nat) (intr : Bool) (pipe : Pipeline σ τ ρ)
    (st : ExecState σ τ ρ) :
    Except String (ExecState σ τ ρ × List FlushCall × Bool) :=
  if st.finalized then
    .error "InternalException: PushFinalize on a finalized pipeline"
  else
    let st := { st with finalized := true }
    let flushed : Except String (ExecState σ τ ρ × List FlushCall) :=
      if st.finished_processing then .ok (st, [])
      else if st.in_process_operators.isEmpty then
        flushCachesAux fuel intr pipe st.cached_chunks.length 0 st
      else .error "D_ASSERT: in_process_operators.empty()"
    match flushed with
    | .error e => .error e
    | .ok (st1, fs) =>
      -- D_ASSERT(local_sink_state); sink.Combine(...); local_sink_state.reset()
      match st1.local_sink_state with
      | none => .error "D_ASSERT: local_sink_state"
      | some _ =>
        match pipe.sink with
        | none => .error "null pipeline.sink"
        | some _ => .ok ({ st1 with local_sink_state := none }, fs, true)

/-- The source-driven loop of `PipelineExecutor::Execute()`
(pipeline_executor.cpp:76-87).  The returned `Bool` records whether the loop
terminated because `ExecutePushInternal` returned `FINISHED` (in which case
`finished_processing` is set). -/
def runSourceLoop (intr : Bool) (pipe : Pipeline σ τ ρ) :
    Nat → ExecState σ τ ρ → Except String (ExecState σ τ ρ × Bool)
  | 0, _ => .error "fuel exhausted"
  | fuel + 1, st =>
    -- source_chunk is intermediate_chunks[0], or final_chunk if no operators;
    -- Reset() it and FetchFromSource (the profiler span checks interrupts)
    if intr then .error "InterruptException"
    else
      let (chunk, src') := pipe.source.getData st.local_source_state
      let st1 := { st with
        local_source_state := src'
        intermediate_chunks :=
          if pipe.operators.isEmpty then st.intermediate_chunks
          else st.intermediate_chunks.set 0 chunk
        final_chunk :=
          if pipe.operators.isEmpty then chunk else st.final_chunk }
      if chunk.length = 0 then .ok (st1, false)
      else
        match executePushInternal fuel intr pipe st1 chunk 0 with
        | .error e => .error e
        | .ok (r, st2, _, _) =>
          if r = .FINISHED then
            .ok ({ st2 with finished_processing := true }, true)
          else runSourceLoop intr pipe fuel st2

/-- `PipelineExecutor::Execute()` (pipeline_executor.cpp:73-89): push-mode
top-level loop followed by `PushFinalize`. -/
def pipelineRun (fuel : Nat) (intr : Bool) (pipe : Pipeline σ τ ρ)
    (st : ExecState σ τ ρ) :
    Except String (ExecState σ τ ρ × List FlushCall × Bool × Bool) :=
  match pipe.sink with
  | none => .error "D_ASSERT: pipeline.sink"
  | some _ =>
    match runSourceLoop intr pipe fuel st with
    | .error e => .error e
    | .ok (st1, sawFin) =>
      match pushFinalize fuel intr pipe st1 with
      | .error e => .error e
      | .ok (st2, fs, combined) => .ok (st2, fs, combined, sawFin)

/-- The cache-slot allocation of the `PipelineExecutor` constructor
(pipeline_executor.cpp:54-68): slot `i` holds a freshly initialized chunk iff
a sink exists, the sink does not require preserved input order, the operator
declares `RequiresCache()` and every output type passes `CanCacheType`. -/
def buildCachedChunks (sink : Option (Sink τ)) (operators : List (Operator σ)) :
    List (Option Chunk) :=
  operators.map fun op =>
    match sink with
    | some s =>
      if s.sinkOrderMatters = false ∧ op.requiresCache = true ∧
          op.types.all canCacheType then some [] else none
    | none => none

/-- The `PipelineExecutor` constructor (pipeline_executor.cpp:37-71):
intermediate chunks and operator states per operator, cache slots per
`buildCachedChunks`, empty in-process stack, cleared flags, fresh local sink
and source state. -/
def initExecState (pipe : Pipeline σ τ ρ) : ExecState σ τ ρ :=
  { intermediate_chunks := pipe.operators.map fun _ => []
    final_chunk := []
    intermediate_states := pipe.operators.map fun op => op.initState
    cached_chunks := buildCachedChunks pipe.sink pipe.operators
    in_process_operators := []
    finished_processing := false
    finalized := false
    local_sink_state := (pipe.sink.map fun s => s.initLocal)
    local_source_state := pipe.source.initLocal }

/-! ## Checkpoint manager (`src/storage/checkpoint_manager.cpp`)

The catalog entries and their `Serialize`/`Deserialize` methods are external
collaborators; each serialized entry is modelled as one opaque token carrying
its payload.  Modelled from the spec: a `MetaBlockWriter`/`MetaBlockReader`
pair (whose implementation is not part of the sampled sources) is an
append-only typed stream spanning a chain of fixed-size blocks; we model a
stream as a token list and a writer/reader position `(block_id, offset)` by
dividing the token index by a block capacity `B`. -/

/-- Opaque catalog-entry payloads.  A table's catalog entry carries its name;
its column data (written to the table-data stream) carries its rows. -/
structure TableData where
  name : Nat
  rows : List Nat
deriving DecidableEq, Repr

/-- A schema together with the entries its catalog scan produces:
tables and views (from the table-entry scope), sequences, and macro entries
(from the scalar-function scope). -/
structure SchemaData where
  name : Nat
  tables : List TableData
  views : List Nat
  sequences : List Nat
  macroDefs : List Nat
deriving DecidableEq, Repr

/-- One typed value in a meta-block stream. -/
inductive MetaToken where
  | u32 (n : Nat)
  | u64 (n : Nat)
  | blockPtr (b : Int)
  | schemaEntry (name : Nat)
  | sequenceEntry (name : Nat)
  | tableEntry (name : Nat)
  | viewEntry (name : Nat)
  | macroEntry (name : Nat)
  | tableDataPayload (rows : List Nat)
deriving DecidableEq, Repr

/-- Read one `u32` from a stream at a position. -/
def readU32 (s : List MetaToken) (pos : Nat) : Except String (Nat × Nat) :=
  match s.get? pos with
  | some (.u32 n) => .ok (n, pos + 1)
  | _ => .error "expected u32"

/-- Read one `u64` from a stream at a position. -/
def readU64 (s : List MetaToken) (pos : Nat) : Except String (Nat × Nat) :=
  match s.get? pos with
  | some (.u64 n) => .ok (n, pos + 1)
  | _ => .error "expected u64"

/-- Read one `block_id_t` from a stream at a position. -/
def readBlockPtr (s : List MetaToken) (pos : Nat) : Except String (Int × Nat) :=
  match s.get? pos with
  | some (.blockPtr b) => .ok (b, pos + 1)
  | _ => .error "expected block id"

/-- `CheckpointManager::WriteTable` (checkpoint_manager.cpp:221-231): write
the table's catalog entry into the metadata stream, then the current block id
and offset of the table-data stream's tip, then the table's data into the
table-data stream.  `B` is the block capacity of the modelled stream. -/
def writeTable (B : Nat) (md td : List MetaToken) (t : TableData) :
    List MetaToken × List MetaToken :=
  let md := md ++ [.tableEntry t.name]
  let md := md ++ [.blockPtr (td.length / B : Nat)]
  let md := md ++ [.u64 (td.length % B)]
  let td := td ++ [.tableDataPayload t.rows]
  (md, td)

/-- `CheckpointManager::ReadTable` (checkpoint_manager.cpp:233-251): read the
table's catalog entry, then the block id and offset, open a second reader at
exactly that block and offset, read the table data there, and return the
recreated table (creation in the catalog is external).  Also returns the
position at which the second reader was opened, for observability. -/
def readTable (B : Nat) (md : List MetaToken) (pos : Nat)
    (td : List MetaToken) : Except String (TableData × Nat × Nat) :=
  match md.get? pos with
  | some (.tableEntry name) =>
    let pos := pos + 1
    match readBlockPtr md pos with
    | .error e => .error e
    | .ok (bid, pos) =>
      match readU64 md pos with
      | .error e => .error e
      | .ok (off, pos) =>
        -- MetaBlockReader table_data_reader(buffer_manager, block_id);
        -- table_data_reader.offset = offset;
        let dpos := bid.toNat * B + off
        match td.get? dpos with
        | some (.tableDataPayload rows) => .ok (⟨name, rows⟩, pos, dpos)
        | _ => .error "expected table data payload"
  | _ => .error "expected table entry"

/-- The per-table portion of the metadata stream written by `WriteTable`,
given the table-data stream length at the time of the write. -/
def tableTokens (B : Nat) (tdlen : Nat) (t : TableData) : List MetaToken :=
  [.tableEntry t.name, .blockPtr (tdlen / B : Nat), .u64 (tdlen % B)]

/-- The metadata tokens for a list of tables written back-to-back, starting
from table-data stream length `tdlen` (each table appends one payload token
to the table-data stream). -/
def tablesTokens (B : Nat) : Nat → List TableData → List MetaToken
  | _, [] => []
  | tdlen, t :: ts => tableTokens B tdlen t ++ tablesTokens B (tdlen + 1) ts

/-- Fold `writeTable` over a table list (the loop in `WriteSchema`). -/
def writeTables (B : Nat) (md td : List MetaToken) :
    List TableData → List MetaToken × List MetaToken
  | [] => (md, td)
  | t :: ts =>
    let (md1, td1) := writeTable B md td t
    writeTables B md1 td1 ts

/-- `CheckpointManager::WriteSchema` (checkpoint_manager.cpp:99-144): the
serialized schema, then `u32 sequence_count` and each sequence, then
`u32 table_count` and each table, then `u32 view_count` and each view, then
`u32 macro_count` and each macro entry. -/
def writeSchema (B : Nat) (md td : List MetaToken) (s : SchemaData) :
    List MetaToken × List MetaToken :=
  let md := md ++ [.schemaEntry s.name]
  let md := md ++ [.u32 s.sequences.length] ++ s.sequences.map MetaToken.sequenceEntry
  let md := md ++ [.u32 s.tables.length]
  let (md, td) := writeTables B md td s.tables
  let md := md ++ [.u32 s.views.length] ++ s.views.map MetaToken.viewEntry
  let md := md ++ [.u32 s.macroDefs.length] ++ s.macroDefs.map MetaToken.macroEntry
  (md, td)

/-- Read `n` sequence entries (the sequence loop of `ReadSchema`). -/
def readSequences (md : List MetaToken) :
    Nat → Nat → Except String (List Nat × Nat)
  | 0, pos => .ok ([], pos)
  | n + 1, pos =>
    match md.get? pos with
    | some (.sequenceEntry name) =>
      match readSequences md n (pos + 1) with
      | .error e => .error e
      | .ok (rest, pos') => .ok (name :: rest, pos')
    | _ => .error "expected sequence entry"

/-- Read `n` tables (the table loop of `ReadSchema`). -/
def readTables (B : Nat) (md : List MetaToken) (td : List MetaToken) :
    Nat → Nat → Except String (List TableData × Nat)
  | 0, pos => .ok ([], pos)
  | n + 1, pos =>
    match readTable B md pos td with
    | .error e => .error e
    | .ok (t, pos1, _) =>
      match readTables B md td n pos1 with
      | .error e => .error e
      | .ok (rest, pos') => .ok (t :: rest, pos')

/-- Read `n` view entries (the view loop of `ReadSchema`). -/
def readViews (md : List MetaToken) :
    Nat → Nat → Except String (List Nat × Nat)
  | 0, pos => .ok ([], pos)
  | n + 1, pos =>
    match md.get? pos with
    | some (.viewEntry name) =>
      match readViews md n (pos + 1) with
      | .error e => .error e
      | .ok (rest, pos') => .ok (name :: rest, pos')
    | _ => .error "expected view entry"

/-- Read `n` macro entries (the macro loop of `ReadSchema`). -/
def readMacros (md : List MetaToken) :
    Nat → Nat → Except String (List Nat × Nat)
  | 0, pos => .ok ([], pos)
  | n + 1, pos =>
    match md.get? pos with
    | some (.macroEntry name) =>
      match readMacros md n (pos + 1) with
      | .error e => .error e
      | .ok (rest, pos') => .ok (name :: rest, pos')
    | _ => .error "expected macro entry"

/-- `CheckpointManager::ReadSchema` (checkpoint_manager.cpp:146-174): read
the schema entry, then the sequence count and that many sequences, then the
table count and tables, then the view count and views, then the macro count
and macro entries; return the recreated schema (catalog creation is
external). -/
def readSchema (B : Nat) (md : List MetaToken) (pos : Nat)
    (td : List MetaToken) : Except String (SchemaData × Nat) :=
  match md.get? pos with
  | some (.schemaEntry name) =>
    let pos := pos + 1
    match readU32 md pos with
    | .error e => .error e
    | .ok (seq_count, pos) =>
      match readSequences md seq_count pos with
      | .error e => .error e
      | .ok (seqs, pos) =>
        match readU32 md pos with
        | .error e => .error e
        | .ok (table_count, pos) =>
          match readTables B md td table_count pos with
          | .error e => .error e
          | .ok (tables, pos) =>
            match readU32 md pos with
            | .error e => .error e
            | .ok (view_count, pos) =>
              match readViews md view_count pos with
              | .error e => .error e
              | .ok (views, pos) =>
                match readU32 md pos with
                | .error e => .error e
                | .ok (macro_count, pos) =>
                  match readMacros md macro_count pos with
                  | .error e => .error e
                  | .ok (ms, pos) =>
                    .ok (⟨name, tables, views, seqs, ms⟩, pos)
  | _ => .error "expected schema entry"

/-- Read `n` schemas (the loop of `LoadFromStorage`). -/
def readSchemas (B : Nat) (md td : List MetaToken) :
    Nat → Nat → Except String (List SchemaData × Nat)
  | 0, pos => .ok ([], pos)
  | n + 1, pos =>
    match readSchema B md pos td with
    | .error e => .error e
    | .ok (s, pos1) =>
      match readSchemas B md td n pos1 with
      | .error e => .error e
      | .ok (rest, pos') => .ok (s :: rest, pos')

/-- `CheckpointManager::LoadFromStorage` (checkpoint_manager.cpp:78-94):
read `meta_block` from the block manager; if it is negative (no prior image)
return immediately, otherwise open a `MetaBlockReader` at that block, read
the schema count and that many schemas.  The returned `Bool` records whether
a reader was opened; the returned list holds the schemas recreated in the
catalog. -/
def loadFromStorage (B : Nat) (meta_block : Int) (md td : List MetaToken) :
    Except String (Bool × List SchemaData) :=
  if meta_block < 0 then
    -- storage is empty
    .ok (false, [])
  else
    let pos := meta_block.toNat * B
    match readU32 md pos with
    | .error e => .error e
    | .ok (schema_count, pos) =>
      match readSchemas B md td schema_count pos with
      | .error e => .error e
      | .ok (schemas, _) => .ok (true, schemas)

/-! ## Concrete fixtures used by witnesses and counterexamples -/

/-- A scripted operator over a counter state: it returns `HAVE_MORE_OUTPUT`
with chunk `f j` while the counter `j` is below `m`, then `NEED_MORE_INPUT`
with chunk `f m`. -/
def opScript (m : Nat) (f : Nat → Chunk) : Operator Nat :=
  { exec := fun _prev j =>
      if j < m then (.HAVE_MORE_OUTPUT, f j, j + 1)
      else (.NEED_MORE_INPUT, f j, j + 1)
    requiresCache := false
    types := []
    initState := 0 }

/-- A sink that counts the rows it receives and never finishes. -/
def countSink : Sink Nat :=
  { sinkFn := fun c n => (.NEED_MORE_INPUT, n + c.length)
    sinkOrderMatters := true
    initLocal := 0 }

/-- A sink that immediately reports `FINISHED` without changing its state. -/
def finSink : Sink Nat :=
  { sinkFn := fun _ n => (.FINISHED, n)
    sinkOrderMatters := true
    initLocal := 0 }

/-- A source that produces nothing. -/
def srcEmpty : Source Unit :=
  { getData := fun u => ([], u), initLocal := () }

/-- An operator that passes its input through unchanged. -/
def idOp : Operator Nat :=
  { exec := fun prev j => (.NEED_MORE_INPUT, prev, j)
    requiresCache := true
    types := [.INTEGER]
    initState := 0 }

/-- The single-operator pipeline used for the `HAVE_MORE_OUTPUT` resumption
claim. -/
def pipeScript (m : Nat) (f : Nat → Chunk) : Pipeline Nat Nat Unit :=
  { source := srcEmpty, operators := [opScript m f], sink := some countSink }

/-- A one-operator pipeline whose sink counts rows. -/
def pipeId : Pipeline Nat Nat Unit :=
  { source := srcEmpty, operators := [idOp]
    sink := some { countSink with sinkOrderMatters := false } }

/-- A pipeline with no operators whose sink finishes immediately. -/
def pipeFin : Pipeline Nat Nat Unit :=
  { source := srcEmpty, operators := [], sink := some finSink }

/-- A source that produces `[7]` on its first call and nothing afterwards. -/
def srcOnce : Source Bool :=
  { getData := fun b => if b then ([7], false) else ([], false)
    initLocal := true }

/-- A pipeline whose source produces one chunk and whose sink finishes
immediately. -/
def pipeSrcFin : Pipeline Nat Nat Bool :=
  { source := srcOnce, operators := [], sink := some finSink }

/-- The entry `LoopState` of the C3 witness run: one intermediate chunk, no
cache, empty stack. -/
def ls3in : LoopState Nat :=
  { ics := [[]], res := [], states := [0], cached := [none], stack := []
    trace := [] }

/-- The exit `LoopState` of the C3 witness run. -/
def ls3out : LoopState Nat :=
  { ics := [[]], res := [1], states := [1], cached := [none], stack := []
    trace := [⟨0, [5], .NEED_MORE_INPUT, [1]⟩] }

/-- An operator that adds 10 to every row of its input and never resumes. -/
def addOp : Operator Nat :=
  { exec := fun prev j => (.NEED_MORE_INPUT, prev.map (fun v => v + 10), j)
    requiresCache := false
    types := [.INTEGER]
    initState := 0 }

/-- A two-operator pipeline: `addOp` feeds the scripted operator, so the
scripted operator's `prev_chunk` is an intermediate chunk, not the pipeline
input. -/
def pipeTwo : Pipeline Nat Nat Unit :=
  { source := srcEmpty, operators := [addOp, opScript 1 (fun n => [n + 5])]
    sink := some countSink }

/-- The events of operator `k` in a trace, in order: one event per entry of
that operator's `Execute`. -/
def opEvents (tr : List OpEvent) (k : Nat) : List OpEvent :=
  tr.filter (fun e => e.operator_idx == k)

/-- The `prev_chunk` the `Execute` loop hands to the operator entered at
`current_idx = t` (pipeline_executor.cpp:250-252): the input chunk for the
first operator after `initial_idx`, the intermediate chunk before it
otherwise. -/
def prevOf (input : Chunk) (initial : Nat) (ics : List Chunk) (t : Nat) :
    Chunk :=
  if t = initial + 1 then input else ics.getD (t - 1) []

/-- Every index on `in_process_operators` was pushed by its operator
returning `HAVE_MORE_OUTPUT`: that operator's latest event is a
`HAVE_MORE_OUTPUT` whose `prev_chunk` is exactly what `GoToSource`-driven
resumption will hand it again. -/
def SuspendedOK (input : Chunk) (initial : Nat) (tr : List OpEvent)
    (ics : List Chunk) (stack : List Nat) : Prop :=
  ∀ t ∈ stack, ∃ e, (opEvents tr (t - 1)).getLast? = some e ∧
    e.result = .HAVE_MORE_OUTPUT ∧ e.prev_chunk = prevOf input initial ics t

/-- Every operator whose latest event is `HAVE_MORE_OUTPUT` has its index
on the stack, or is the operator being (re-)entered at `c`. -/
def PendingIn (tr : List OpEvent) (s : List Nat) (c : Nat) : Prop :=
  ∀ k e, (opEvents tr k).getLast? = some e →
    e.result = .HAVE_MORE_OUTPUT → (k + 1) ∈ s ∨ k + 1 = c

/-- The C1 resumption property of a trace: whenever an operator event
returns `HAVE_MORE_OUTPUT`, the next event of the same operator (its
re-entry) carries the same `prev_chunk` contents. -/
def SameResume (tr : List OpEvent) : Prop :=
  ∀ k i e e', (opEvents tr k).get? i = some e →
    (opEvents tr k).get? (i + 1) = some e' →
    e.result = .HAVE_MORE_OUTPUT → e'.prev_chunk = e.prev_chunk

/-- No operator's final event is `HAVE_MORE_OUTPUT`: every
`HAVE_MORE_OUTPUT` was followed by a re-entry. -/
def NoPending (tr : List OpEvent) : Prop :=
  ∀ k e, (opEvents tr k).getLast? = some e → e.result ≠ .HAVE_MORE_OUTPUT

/-! ## Theorems -/

/-- Helper: the two possible outcomes of `goToSource`. -/
theorem goToSource_cases (s : List Nat) (initial : Nat) :
    (s = [] ∧ goToSource s initial = (initial, [])) ∨
    (∃ t rest, s = t :: rest ∧ goToSource s initial = (t, rest)) := by
  cases s with
  | nil => exact Or.inl ⟨rfl, rfl⟩
  | cons t rest => exact Or.inr ⟨t, rest, rfl, rfl⟩

/-- Helper: full characterization of one `executeLoop` run: the in-process
stack keeps only indices in `(initial_idx, operators.length]`, cache slots
below `initial_idx` are untouched, and the appended trace satisfies the
`FINISHED`-immediacy and result-classification properties. -/
theorem executeLoop_spec {σ : Type} :
    ∀ (fuel : Nat) (ops : List (Operator σ)) (input : Chunk)
      (initial current : Nat) (ls : LoopState σ) (r : OperatorResultType)
      (ls' : LoopState σ),
      (∀ x ∈ ls.stack, initial < x ∧ x ≤ ops.length) →
      initial ≤ current →
      (current = initial → ls.stack = []) →
      executeLoop false ops input initial fuel current ls = .ok (r, ls') →
      (∀ x ∈ ls'.stack, initial < x ∧ x ≤ ops.length) ∧
      ls'.cached.length = ls.cached.length ∧
      (∀ j < initial, ls'.cached.get? j = ls.cached.get? j) ∧
      ∃ new, ls'.trace = ls.trace ++ new ∧
        (r = .FINISHED → ∃ pre ev, new = pre ++ [ev] ∧
          ev.result = .FINISHED ∧ ev.out_chunk = [] ∧
          ∀ e ∈ pre, e.result ≠ .FINISHED) ∧
        (r ≠ .FINISHED → (∀ e ∈ new, e.result ≠ .FINISHED) ∧
          (r = .HAVE_MORE_OUTPUT ↔ ls'.stack ≠ []) ∧
          (r = .NEED_MORE_INPUT ↔ ls'.stack = [])) := by
  intro fuel
  induction fuel with
  | zero =>
    intro ops input initial current ls r ls' _ _ _ heq
    exact absurd heq (by simp [executeLoop])
  | succ n ih =>
    intro ops input initial current ls r ls' Hstk Hle Hcur heq
    rw [executeLoop] at heq
    simp only [Bool.false_eq_true, if_false] at heq
    by_cases hci : current = initial
    · simp only [if_pos hci] at heq
      obtain ⟨rfl, rfl⟩ : .NEED_MORE_INPUT = r ∧ writeChunk ls current [] = ls' := by
        injection heq with h1
        injection h1 with h2 h3
        exact ⟨h2, h3⟩
      have hse : ls.stack = [] := Hcur hci
      refine ⟨by simp [hse], by simp, by simp, [], by simp, ?_, ?_⟩
      · intro hfin; cases hfin
      · intro _
        refine ⟨by simp, ?_, ?_⟩ <;> simp [hse]
    · simp only [if_neg hci] at heq
      have hcur_gt : initial < current := by omega
      cases hop : ops.get? (current - 1) with
      | none =>
        simp only [writeChunk_states] at heq
        rw [hop] at heq
        simp at heq
      | some op =>
        simp only [writeChunk_states] at heq
        cases hst : ls.states.get? (current - 1) with
        | none =>
          rw [hop, hst] at heq
          simp at heq
        | some opstate =>
          have hlt : current - 1 < ops.length := by
            rcases List.get?_eq_some.mp hop with ⟨h, _⟩
            exact h
          obtain ⟨execf, orc, otys, oini⟩ := op
          simp only [hop, hst] at heq
          rcases hexec : execf (if current = initial + 1 then input
            else (writeChunk ls current []).ics.getD (current - 1) [])
            opstate with ⟨rop, out, opst2⟩
          simp only [hexec] at heq
          by_cases hfin : rop = .FINISHED
          · subst hfin
            rw [if_pos rfl] at heq
            by_cases hout : out = []
            · rw [if_pos hout] at heq
              simp only [writeChunk_stack, writeChunk_trace, writeChunk_cached,
                reduceCtorEq, if_false] at heq
              obtain ⟨rfl, rfl⟩ : OperatorResultType.FINISHED = r ∧ _ = ls' := by
                injection heq with h1
                injection h1 with h2 h3
                exact ⟨h2, h3⟩
              refine ⟨by simpa using Hstk, by simp, by simp, ?_⟩
              refine ⟨[⟨current - 1,
                (if current = initial + 1 then input
                  else (writeChunk ls current []).ics.getD (current - 1) []),
                .FINISHED, out⟩], by simp, ?_, ?_⟩
              · intro _
                exact ⟨[], ⟨current - 1,
                  (if current = initial + 1 then input
                    else (writeChunk ls current []).ics.getD (current - 1) []),
                  .FINISHED, out⟩, by simp, rfl, hout, by simp⟩
              · intro hne; exact absurd rfl hne
            · rw [if_neg hout] at heq
              cases heq
          · rw [if_neg hfin] at heq
            rcases hcache : cacheChunk (if current = initial + 1 then input
                else (writeChunk ls current []).ics.getD (current - 1) [])
                out ((writeChunk ls current []).cached.getD (current - 1) none)
              with ⟨cur, slot⟩
            simp only [hcache] at heq
            simp only [writeChunk_stack, writeChunk_trace, writeChunk_cached,
              writeChunk_states] at heq
            have hstk2 : ∀ x ∈ (if rop = OperatorResultType.HAVE_MORE_OUTPUT
                then current :: ls.stack else ls.stack),
                initial < x ∧ x ≤ ops.length := by
              intro x hx
              by_cases hr : rop = OperatorResultType.HAVE_MORE_OUTPUT
              · rw [if_pos hr] at hx
                rcases List.mem_cons.mp hx with rfl | hx
                · exact ⟨hcur_gt, by omega⟩
                · exact Hstk x hx
              · rw [if_neg hr] at hx
                exact Hstk x hx
            by_cases hcur0 : cur = []
            · rw [if_pos hcur0] at heq
              rcases goToSource_cases (if rop = OperatorResultType.HAVE_MORE_OUTPUT
                  then current :: ls.stack else ls.stack) initial with
                ⟨hs2, hgo⟩ | ⟨t, rest, hs2, hgo⟩
              · rw [hgo] at heq
                dsimp only [] at heq
                rw [if_neg (by omega : ¬ initial < initial)] at heq
                obtain ⟨H1, H2, H3, new2, htr, hF, hNF⟩ :=
                  ih ops input initial initial _ r ls' (by simp) (Nat.le_refl _)
                    (fun _ => rfl) heq
                refine ⟨H1, ?_, ?_, ⟨current - 1,
                    (if current = initial + 1 then input
                      else (writeChunk ls current []).ics.getD (current - 1) []),
                    rop, out⟩ :: new2, ?_, ?_, ?_⟩
                · rw [H2]; simp [List.length_set]
                · intro j hj
                  rw [H3 j hj]
                  exact List.get?_set_ne _ _ (by omega)
                · rw [htr]; simp
                · intro hrF
                  obtain ⟨pre2, ev2, hnew2, hev2, hout2, hpre2⟩ := hF hrF
                  refine ⟨⟨current - 1,
                    (if current = initial + 1 then input
                      else (writeChunk ls current []).ics.getD (current - 1) []),
                    rop, out⟩ :: pre2, ev2,
                    by simp [hnew2], hev2, hout2, ?_⟩
                  intro e he
                  rcases List.mem_cons.mp he with rfl | he
                  · exact hfin
                  · exact hpre2 e he
                · intro hrNF
                  obtain ⟨hall2, hiff1, hiff2⟩ := hNF hrNF
                  refine ⟨?_, hiff1, hiff2⟩
                  intro e he
                  rcases List.mem_cons.mp he with rfl | he
                  · exact hfin
                  · exact hall2 e he
              · rw [hgo] at heq
                dsimp only [] at heq
                have htInit : initial < t := by
                  refine (hstk2 t ?_).1
                  rw [hs2]; exact List.mem_cons_self t rest
                rw [if_neg (by omega : ¬ t < initial)] at heq
                obtain ⟨H1, H2, H3, new2, htr, hF, hNF⟩ :=
                  ih ops input initial t _ r ls'
                    (by
                      intro x hx
                      refine hstk2 x ?_
                      rw [hs2]; exact List.mem_cons_of_mem t hx)
                    (Nat.le_of_lt htInit) (fun h => absurd h (by omega)) heq
                refine ⟨H1, ?_, ?_, ⟨current - 1,
                    (if current = initial + 1 then input
                      else (writeChunk ls current []).ics.getD (current - 1) []),
                    rop, out⟩ :: new2, ?_, ?_, ?_⟩
                · rw [H2]; simp [List.length_set]
                · intro j hj
                  rw [H3 j hj]
                  exact List.get?_set_ne _ _ (by omega)
                · rw [htr]; simp
                · intro hrF
                  obtain ⟨pre2, ev2, hnew2, hev2, hout2, hpre2⟩ := hF hrF
                  refine ⟨⟨current - 1,
                    (if current = initial + 1 then input
                      else (writeChunk ls current []).ics.getD (current - 1) []),
                    rop, out⟩ :: pre2, ev2,
                    by simp [hnew2], hev2, hout2, ?_⟩
                  intro e he
                  rcases List.mem_cons.mp he with rfl | he
                  · exact hfin
                  · exact hpre2 e he
                · intro hrNF
                  obtain ⟨hall2, hiff1, hiff2⟩ := hNF hrNF
                  refine ⟨?_, hiff1, hiff2⟩
                  intro e he
                  rcases List.mem_cons.mp he with rfl | he
                  · exact hfin
                  · exact hall2 e he
            · rw [if_neg hcur0] at heq
              by_cases hlen : ops.length < current + 1
              · rw [if_pos hlen] at heq
                obtain ⟨rfl, rfl⟩ :
                    (if (if rop = OperatorResultType.HAVE_MORE_OUTPUT
                        then current :: ls.stack else ls.stack) = []
                      then OperatorResultType.NEED_MORE_INPUT
                      else OperatorResultType.HAVE_MORE_OUTPUT) = r ∧ _ = ls' := by
                  injection heq with h1
                  injection h1 with h2 h3
                  exact ⟨h2, h3⟩
                refine ⟨by simpa using hstk2, by simp [List.length_set],
                  ?_, [⟨current - 1,
                    (if current = initial + 1 then input
                      else (writeChunk ls current []).ics.getD (current - 1) []),
                    rop, out⟩], by simp, ?_, ?_⟩
                · intro j hj
                  simp only [writeChunk_cached]
                  exact List.get?_set_ne _ _ (by omega)
                · intro hrF
                  exfalso
                  by_cases hs0 : (if rop = OperatorResultType.HAVE_MORE_OUTPUT
                      then current :: ls.stack else ls.stack) = []
                  · rw [if_pos hs0] at hrF; cases hrF
                  · rw [if_neg hs0] at hrF; cases hrF
                · intro hrNF
                  refine ⟨?_, ?_, ?_⟩
                  · intro e he
                    rcases List.mem_cons.mp he with rfl | he
                    · exact hfin
                    · cases he
                  · by_cases hs0 : (if rop = OperatorResultType.HAVE_MORE_OUTPUT
                        then current :: ls.stack else ls.stack) = []
                    · rw [if_pos hs0]
                      simp [writeChunk_stack, hs0]
                    · rw [if_neg hs0]
                      simp [writeChunk_stack, hs0]
                  · by_cases hs0 : (if rop = OperatorResultType.HAVE_MORE_OUTPUT
                        then current :: ls.stack else ls.stack) = []
                    · rw [if_pos hs0]
                      simp [writeChunk_stack, hs0]
                    · rw [if_neg hs0]
                      simp [writeChunk_stack, hs0]
              · rw [if_neg hlen] at heq
                obtain ⟨H1, H2, H3, new2, htr, hF, hNF⟩ :=
                  ih ops input initial (current + 1) _ r ls'
                    (by simpa using hstk2) (by omega)
                    (fun h => absurd h (by omega)) heq
                simp only [writeChunk_cached, writeChunk_trace,
                  writeChunk_ics_length] at H2 H3 htr
                refine ⟨H1, ?_, ?_, ⟨current - 1,
                    (if current = initial + 1 then input
                      else (writeChunk ls current []).ics.getD (current - 1) []),
                    rop, out⟩ :: new2, ?_, ?_, ?_⟩
                · rw [H2]; simp [List.length_set]
                · intro j hj
                  rw [H3 j hj]
                  exact List.get?_set_ne _ _ (by omega)
                · rw [htr]; simp
                · intro hrF
                  obtain ⟨pre2, ev2, hnew2, hev2, hout2, hpre2⟩ := hF hrF
                  refine ⟨⟨current - 1,
                    (if current = initial + 1 then input
                      else (writeChunk ls current []).ics.getD (current - 1) []),
                    rop, out⟩ :: pre2, ev2,
                    by simp [hnew2], hev2, hout2, ?_⟩
                  intro e he
                  rcases List.mem_cons.mp he with rfl | he
                  · exact hfin
                  · exact hpre2 e he
                · intro hrNF
                  obtain ⟨hall2, hiff1, hiff2⟩ := hNF hrNF
                  refine ⟨?_, hiff1, hiff2⟩
                  intro e he
                  rcases List.mem_cons.mp he with rfl | he
                  · exact hfin
                  · exact hall2 e he

/-- Helper: the same characterization lifted to `Execute`
(`pipelineExecute`), for a non-empty input chunk. -/
theorem pipelineExecute_spec {σ : Type} (fuel : Nat) (ops : List (Operator σ))
    (input : Chunk) (initial : Nat) (ls : LoopState σ)
    (r : OperatorResultType) (ls' : LoopState σ)
    (Hin : input ≠ [])
    (Hstk : ∀ x ∈ ls.stack, initial < x ∧ x ≤ ops.length)
    (heq : pipelineExecute fuel false ops input initial ls = .ok (r, ls')) :
    (∀ x ∈ ls'.stack, initial < x ∧ x ≤ ops.length) ∧
    ls'.cached.length = ls.cached.length ∧
    (∀ j < initial, ls'.cached.get? j = ls.cached.get? j) ∧
    ∃ new, ls'.trace = ls.trace ++ new ∧
      (r = .FINISHED → ∃ pre ev, new = pre ++ [ev] ∧
        ev.result = .FINISHED ∧ ev.out_chunk = [] ∧
        ∀ e ∈ pre, e.result ≠ .FINISHED) ∧
      (r ≠ .FINISHED → (∀ e ∈ new, e.result ≠ .FINISHED) ∧
        (r = .HAVE_MORE_OUTPUT ↔ ls'.stack ≠ []) ∧
        (r = .NEED_MORE_INPUT ↔ ls'.stack = [])) := by
  rw [pipelineExecute] at heq
  rw [if_neg (by simpa [List.length_eq_zero] using Hin)] at heq
  by_cases hopse : ops.isEmpty
  · rw [if_pos hopse] at heq; cases heq
  · rw [if_neg hopse] at heq
    rcases goToSource_cases ls.stack initial with ⟨hs, hgo⟩ | ⟨t, rest, hs, hgo⟩
    · rw [hgo] at heq
      dsimp only [] at heq
      rw [if_neg (by omega : ¬ initial < initial), if_pos rfl] at heq
      by_cases hlen : ops.length < initial + 1
      · rw [if_pos hlen] at heq
        obtain ⟨rfl, rfl⟩ : OperatorResultType.NEED_MORE_INPUT = r ∧
            { ls with stack := [], res := input } = ls' := by
          injection heq with h1
          injection h1 with h2 h3
          exact ⟨h2, h3⟩
        refine ⟨by simp, by simp, by simp, [], by simp, ?_, ?_⟩
        · intro h; cases h
        · intro _
          exact ⟨by simp, by simp, by simp⟩
      · rw [if_neg hlen] at heq
        have := executeLoop_spec fuel ops input initial (initial + 1)
          { ls with stack := [] } r ls' (by simp) (by omega)
          (fun h => absurd h (by omega)) heq
        simpa using this
    · rw [hgo] at heq
      dsimp only [] at heq
      have ht := Hstk t (by rw [hs]; exact List.mem_cons_self t rest)
      rw [if_neg (by omega : ¬ t < initial),
        if_neg (by omega : ¬ t = initial)] at heq
      rw [if_neg (by omega : ¬ ops.length < t)] at heq
      have hrest : ∀ x ∈ ({ ls with stack := rest } : LoopState σ).stack,
          initial < x ∧ x ≤ ops.length := by
        intro x hx
        exact Hstk x (by rw [hs]; exact List.mem_cons_of_mem t hx)
      have := executeLoop_spec fuel ops input initial t
        { ls with stack := rest } r ls' hrest (by omega)
        (fun h => absurd h (by omega)) heq
      simpa using this


mutual

/-- Helper: `canCacheType` agrees with the claim's recursive description of
cacheability. -/
theorem canCacheType_iff : ∀ (t : LogicalType),
    canCacheType t = true ↔ CacheableSpec t
  | .LIST c => by
    constructor
    · intro h; exact absurd h (by simp [canCacheType])
    · intro h; cases h with
      | base _ h1 _ _ => exact absurd rfl (h1 c)
  | .MAP cs => by
    constructor
    · intro h; exact absurd h (by simp [canCacheType])
    · intro h; cases h with
      | base _ _ h2 _ => exact absurd rfl (h2 cs)
  | .STRUCT cs => by
    have hl := canCacheTypeList_iff cs
    constructor
    · intro h
      exact CacheableSpec.struct_all cs (hl.mp h)
    · intro h
      cases h with
      | base _ _ _ h3 => exact absurd rfl (h3 cs)
      | struct_all _ hall => exact hl.mpr hall
  | .BOOLEAN => by
    constructor
    · intro _; exact CacheableSpec.base _ (by simp) (by simp) (by simp)
    · intro _; rfl
  | .INTEGER => by
    constructor
    · intro _; exact CacheableSpec.base _ (by simp) (by simp) (by simp)
    · intro _; rfl
  | .BIGINT => by
    constructor
    · intro _; exact CacheableSpec.base _ (by simp) (by simp) (by simp)
    · intro _; rfl
  | .DOUBLE => by
    constructor
    · intro _; exact CacheableSpec.base _ (by simp) (by simp) (by simp)
    · intro _; rfl
  | .VARCHAR => by
    constructor
    · intro _; exact CacheableSpec.base _ (by simp) (by simp) (by simp)
    · intro _; rfl

/-- Helper: the child-type loop agrees with "all children cacheable". -/
theorem canCacheTypeList_iff : ∀ (ts : List LogicalType),
    canCacheTypeList ts = true ↔ ∀ t ∈ ts, CacheableSpec t
  | [] => by simp [canCacheTypeList]
  | t :: ts => by
    have h1 := canCacheType_iff t
    have h2 := canCacheTypeList_iff ts
    simp only [canCacheTypeList, Bool.and_eq_true, List.mem_cons]
    constructor
    · rintro ⟨ha, hb⟩ x hx
      rcases hx with rfl | hx
      · exact h1.mp ha
      · exact h2.mp hb x hx
    · intro h
      exact ⟨h1.mpr (h t (Or.inl rfl)), h2.mpr fun x hx => h x (Or.inr hx)⟩

end

/-- Helper: `executeLoop` never touches cache slots below `initial_idx` and
preserves the number of slots (writes only happen at operator indices
`current_idx - 1 ≥ initial_idx`). -/
theorem executeLoop_cached {σ : Type} :
    ∀ (fuel : Nat) (ops : List (Operator σ)) (input : Chunk)
      (initial current : Nat) (ls : LoopState σ) (r : OperatorResultType)
      (ls' : LoopState σ),
      initial ≤ current →
      executeLoop false ops input initial fuel current ls = .ok (r, ls') →
      ls'.cached.length = ls.cached.length ∧
      (∀ j < initial, ls'.cached.get? j = ls.cached.get? j) := by
  intro fuel
  induction fuel with
  | zero =>
    intro ops input initial current ls r ls' _ heq
    exact absurd heq (by simp [executeLoop])
  | succ n ih =>
    intro ops input initial current ls r ls' Hle heq
    rw [executeLoop] at heq
    simp only [Bool.false_eq_true, if_false] at heq
    by_cases hci : current = initial
    · simp only [if_pos hci] at heq
      obtain ⟨rfl, rfl⟩ : .NEED_MORE_INPUT = r ∧ writeChunk ls current [] = ls' := by
        injection heq with h1
        injection h1 with h2 h3
        exact ⟨h2, h3⟩
      exact ⟨by simp, by simp⟩
    · simp only [if_neg hci] at heq
      cases hop : ops.get? (current - 1) with
      | none =>
        simp only [writeChunk_states] at heq
        rw [hop] at heq
        simp at heq
      | some op =>
        simp only [writeChunk_states] at heq
        cases hst : ls.states.get? (current - 1) with
        | none =>
          rw [hop, hst] at heq
          simp at heq
        | some opstate =>
          obtain ⟨execf, orc, otys, oini⟩ := op
          simp only [hop, hst] at heq
          rcases hexec : execf (if current = initial + 1 then input
            else (writeChunk ls current []).ics.getD (current - 1) [])
            opstate with ⟨rop, out, opst2⟩
          simp only [hexec] at heq
          by_cases hfin : rop = .FINISHED
          · subst hfin
            rw [if_pos rfl] at heq
            by_cases hout : out = []
            · rw [if_pos hout] at heq
              simp only [writeChunk_stack, writeChunk_trace, writeChunk_cached,
                reduceCtorEq, if_false] at heq
              obtain ⟨rfl, rfl⟩ : OperatorResultType.FINISHED = r ∧ _ = ls' := by
                injection heq with h1
                injection h1 with h2 h3
                exact ⟨h2, h3⟩
              exact ⟨by simp, by simp⟩
            · rw [if_neg hout] at heq
              cases heq
          · rw [if_neg hfin] at heq
            rcases hcache : cacheChunk (if current = initial + 1 then input
                else (writeChunk ls current []).ics.getD (current - 1) [])
                out ((writeChunk ls current []).cached.getD (current - 1) none)
              with ⟨cur, slot⟩
            simp only [hcache] at heq
            simp only [writeChunk_stack, writeChunk_trace, writeChunk_cached,
              writeChunk_states] at heq
            by_cases hcur0 : cur = []
            · rw [if_pos hcur0] at heq
              rcases goToSource_cases (if rop = OperatorResultType.HAVE_MORE_OUTPUT
                  then current :: ls.stack else ls.stack) initial with
                ⟨hs2, hgo⟩ | ⟨t, rest, hs2, hgo⟩
              · rw [hgo] at heq
                dsimp only [] at heq
                rw [if_neg (by omega : ¬ initial < initial)] at heq
                obtain ⟨H2, H3⟩ := ih ops input initial initial _ r ls'
                  (Nat.le_refl _) heq
                refine ⟨?_, ?_⟩
                · rw [H2]; simp [List.length_set]
                · intro j hj
                  rw [H3 j hj]
                  exact List.get?_set_ne _ _ (by omega)
              · rw [hgo] at heq
                dsimp only [] at heq
                by_cases hlt : t < initial
                · rw [if_pos hlt] at heq; cases heq
                · rw [if_neg hlt] at heq
                  obtain ⟨H2, H3⟩ := ih ops input initial t _ r ls'
                    (by omega) heq
                  refine ⟨?_, ?_⟩
                  · rw [H2]; simp [List.length_set]
                  · intro j hj
                    rw [H3 j hj]
                    exact List.get?_set_ne _ _ (by omega)
            · rw [if_neg hcur0] at heq
              by_cases hlen : ops.length < current + 1
              · rw [if_pos hlen] at heq
                obtain ⟨rfl, rfl⟩ :
                    (if (if rop = OperatorResultType.HAVE_MORE_OUTPUT
                        then current :: ls.stack else ls.stack) = []
                      then OperatorResultType.NEED_MORE_INPUT
                      else OperatorResultType.HAVE_MORE_OUTPUT) = r ∧ _ = ls' := by
                  injection heq with h1
                  injection h1 with h2 h3
                  exact ⟨h2, h3⟩
                refine ⟨by simp [List.length_set], ?_⟩
                intro j hj
                simp only [writeChunk_cached]
                exact List.get?_set_ne _ _ (by omega)
              · rw [if_neg hlen] at heq
                obtain ⟨H2, H3⟩ := ih ops input initial (current + 1) _ r ls'
                  (by omega) heq
                simp only [writeChunk_cached, writeChunk_ics_length] at H2 H3
                refine ⟨?_, ?_⟩
                · rw [H2]; simp [List.length_set]
                · intro j hj
                  rw [H3 j hj]
                  exact List.get?_set_ne _ _ (by omega)

/-- Helper: `Execute` never touches cache slots below `initial_idx` and
preserves the number of slots. -/
theorem pipelineExecute_cached {σ : Type} (fuel : Nat)
    (ops : List (Operator σ)) (input : Chunk) (initial : Nat)
    (ls : LoopState σ) (r : OperatorResultType) (ls' : LoopState σ)
    (heq : pipelineExecute fuel false ops input initial ls = .ok (r, ls')) :
    ls'.cached.length = ls.cached.length ∧
    (∀ j < initial, ls'.cached.get? j = ls.cached.get? j) := by
  rw [pipelineExecute] at heq
  by_cases hin0 : input.length = 0
  · rw [if_pos hin0] at heq
    obtain ⟨rfl, rfl⟩ : .NEED_MORE_INPUT = r ∧ ls = ls' := by
      injection heq with h1
      injection h1 with h2 h3
      exact ⟨h2, h3⟩
    exact ⟨rfl, fun _ _ => rfl⟩
  · rw [if_neg hin0] at heq
    by_cases hopse : ops.isEmpty
    · rw [if_pos hopse] at heq; cases heq
    · rw [if_neg hopse] at heq
      rcases goToSource_cases ls.stack initial with ⟨hs, hgo⟩ | ⟨t, rest, hs, hgo⟩
      · rw [hgo] at heq
        dsimp only [] at heq
        rw [if_neg (by omega : ¬ initial < initial), if_pos rfl] at heq
        by_cases hlen : ops.length < initial + 1
        · rw [if_pos hlen] at heq
          obtain ⟨rfl, rfl⟩ : OperatorResultType.NEED_MORE_INPUT = r ∧
              { ls with stack := [], res := input } = ls' := by
            injection heq with h1
            injection h1 with h2 h3
            exact ⟨h2, h3⟩
          exact ⟨rfl, fun _ _ => rfl⟩
        · rw [if_neg hlen] at heq
          exact executeLoop_cached fuel ops input initial (initial + 1)
            { ls with stack := [] } r ls' (by omega) heq
      · rw [hgo] at heq
        dsimp only [] at heq
        by_cases hlt : t < initial
        · rw [if_pos hlt] at heq; cases heq
        · rw [if_neg hlt] at heq
          by_cases hti : t = initial
          · rw [if_pos hti] at heq
            by_cases hlen : ops.length < t + 1
            · rw [if_pos hlen] at heq
              obtain ⟨rfl, rfl⟩ : OperatorResultType.NEED_MORE_INPUT = r ∧
                  { ls with stack := rest, res := input } = ls' := by
                injection heq with h1
                injection h1 with h2 h3
                exact ⟨h2, h3⟩
              exact ⟨rfl, fun _ _ => rfl⟩
            · rw [if_neg hlen] at heq
              exact executeLoop_cached fuel ops input initial (t + 1)
                { ls with stack := rest } r ls' (by omega) heq
          · rw [if_neg hti] at heq
            by_cases hlen : ops.length < t
            · rw [if_pos hlen] at heq
              obtain ⟨rfl, rfl⟩ : OperatorResultType.NEED_MORE_INPUT = r ∧
                  { ls with stack := rest, res := input } = ls' := by
                injection heq with h1
                injection h1 with h2 h3
                exact ⟨h2, h3⟩
              exact ⟨rfl, fun _ _ => rfl⟩
            · rw [if_neg hlen] at heq
              exact executeLoop_cached fuel ops input initial t
                { ls with stack := rest } r ls' (by omega) heq

/-- Helper: the `ExecutePushInternal` loop preserves the cache slots below
`initial_idx`, the number of cache slots, and the `finished_processing` and
`finalized` flags. -/
theorem pushLoop_inv {σ τ ρ : Type} (pipe : Pipeline σ τ ρ) (sink : Sink τ)
    (input : Chunk) (initial : Nat) :
    ∀ (fuel : Nat) (st : ExecState σ τ ρ) (tr : List OpEvent)
      (sunk : List Chunk) (r : OperatorResultType) (st' : ExecState σ τ ρ)
      (tr' : List OpEvent) (sunk' : List Chunk),
      pushLoop false pipe sink input initial fuel st tr sunk =
        .ok (r, st', tr', sunk') →
      st'.cached_chunks.length = st.cached_chunks.length ∧
      (∀ j < initial, st'.cached_chunks.get? j = st.cached_chunks.get? j) ∧
      st'.finished_processing = st.finished_processing ∧
      st'.finalized = st.finalized := by
  obtain ⟨sfn, som, sil⟩ := sink
  intro fuel
  induction fuel with
  | zero =>
    intro st tr sunk r st' tr' sunk' heq
    exact absurd heq (by simp [pushLoop])
  | succ n ih =>
    intro st tr sunk r st' tr' sunk' heq
    rw [pushLoop] at heq
    by_cases hopse : pipe.operators.isEmpty
    · simp only [if_pos hopse, reduceCtorEq, Bool.false_eq_true, if_false,
        if_true] at heq
      by_cases hsc : input.length > 0
      · rw [if_pos hsc] at heq
        cases hlss : st.local_sink_state with
        | none => rw [hlss] at heq; cases heq
        | some lss =>
          rw [hlss] at heq
          dsimp only [] at heq
          by_cases hsf : (sfn input lss).1 = SinkResultType.FINISHED
          · rw [if_pos hsf] at heq
            obtain ⟨rfl, rfl⟩ : OperatorResultType.FINISHED = r ∧ _ = st' := by
              injection heq with h1
              injection h1 with h2 h3
              injection h3 with h4 h5
              exact ⟨h2, h4⟩
            exact ⟨rfl, fun _ _ => rfl, rfl, rfl⟩
          · rw [if_neg hsf] at heq
            obtain ⟨rfl, rfl⟩ : OperatorResultType.NEED_MORE_INPUT = r ∧ _ = st' := by
              injection heq with h1
              injection h1 with h2 h3
              injection h3 with h4 h5
              exact ⟨h2, h4⟩
            exact ⟨rfl, fun _ _ => rfl, rfl, rfl⟩
      · rw [if_neg hsc] at heq
        obtain ⟨rfl, rfl⟩ : OperatorResultType.NEED_MORE_INPUT = r ∧ st = st' := by
          injection heq with h1
          injection h1 with h2 h3
          injection h3 with h4 h5
          exact ⟨h2, h4⟩
        exact ⟨rfl, fun _ _ => rfl, rfl, rfl⟩
    · simp only [if_neg hopse] at heq
      cases hpe : pipelineExecute n false pipe.operators input initial
          (toLoop { st with final_chunk := [] }) with
      | error e => rw [hpe] at heq; cases heq
      | ok rls =>
        obtain ⟨r0, ls⟩ := rls
        rw [hpe] at heq
        dsimp only [fromLoop] at heq
        obtain ⟨hlen0, hpre0⟩ := pipelineExecute_cached n pipe.operators input
          initial (toLoop { st with final_chunk := [] }) r0 ls hpe
        have hcl : ls.cached.length = st.cached_chunks.length := by
          simpa [toLoop] using hlen0
        have hcp : ∀ j < initial, ls.cached.get? j = st.cached_chunks.get? j := by
          intro j hj
          simpa [toLoop] using hpre0 j hj
        by_cases hr0 : r0 = .FINISHED
        · rw [if_pos hr0] at heq
          obtain ⟨rfl, rfl⟩ : OperatorResultType.FINISHED = r ∧ _ = st' := by
            injection heq with h1
            injection h1 with h2 h3
            injection h3 with h4 h5
            exact ⟨h2, h4⟩
          exact ⟨hcl, hcp, rfl, rfl⟩
        · rw [if_neg hr0] at heq
          simp only [Bool.false_eq_true, if_false] at heq
          by_cases hsc : ls.res.length > 0
          · rw [if_pos hsc] at heq
            cases hlss : st.local_sink_state with
            | none => rw [hlss] at heq; cases heq
            | some lss =>
              rw [hlss] at heq
              dsimp only [] at heq
              by_cases hsf : (sfn ls.res lss).1 = SinkResultType.FINISHED
              · rw [if_pos hsf] at heq
                obtain ⟨rfl, rfl⟩ : OperatorResultType.FINISHED = r ∧ _ = st' := by
                  injection heq with h1
                  injection h1 with h2 h3
                  injection h3 with h4 h5
                  exact ⟨h2, h4⟩
                exact ⟨hcl, hcp, rfl, rfl⟩
              · rw [if_neg hsf] at heq
                by_cases hnmi : r0 = .NEED_MORE_INPUT
                · rw [if_pos hnmi] at heq
                  obtain ⟨rfl, rfl⟩ : OperatorResultType.NEED_MORE_INPUT = r ∧ _ = st' := by
                    injection heq with h1
                    injection h1 with h2 h3
                    injection h3 with h4 h5
                    exact ⟨h2, h4⟩
                  exact ⟨hcl, hcp, rfl, rfl⟩
                · rw [if_neg hnmi] at heq
                  obtain ⟨H1, H2, H3, H4⟩ := ih _ _ _ _ _ _ _ heq
                  refine ⟨by simpa [hcl] using H1, ?_, by simpa using H3,
                    by simpa using H4⟩
                  intro j hj
                  rw [H2 j hj]
                  exact hcp j hj
          · rw [if_neg hsc] at heq
            by_cases hnmi : r0 = .NEED_MORE_INPUT
            · rw [if_pos hnmi] at heq
              obtain ⟨rfl, rfl⟩ : OperatorResultType.NEED_MORE_INPUT = r ∧ _ = st' := by
                injection heq with h1
                injection h1 with h2 h3
                injection h3 with h4 h5
                exact ⟨h2, h4⟩
              exact ⟨hcl, hcp, rfl, rfl⟩
            · rw [if_neg hnmi] at heq
              obtain ⟨H1, H2, H3, H4⟩ := ih _ _ _ _ _ _ _ heq
              refine ⟨by simpa [hcl] using H1, ?_, by simpa using H3,
                by simpa using H4⟩
              intro j hj
              rw [H2 j hj]
              exact hcp j hj

/-- Helper: `ExecutePushInternal` preserves cache slots below `initial_idx`,
the number of cache slots, and the two status flags. -/
theorem executePushInternal_inv {σ τ ρ : Type} (fuel : Nat)
    (pipe : Pipeline σ τ ρ) (st : ExecState σ τ ρ) (input : Chunk)
    (initial : Nat) (r : OperatorResultType) (st' : ExecState σ τ ρ)
    (tr : List OpEvent) (sunk : List Chunk)
    (heq : executePushInternal fuel false pipe st input initial =
      .ok (r, st', tr, sunk)) :
    st'.cached_chunks.length = st.cached_chunks.length ∧
    (∀ j < initial, st'.cached_chunks.get? j = st.cached_chunks.get? j) ∧
    st'.finished_processing = st.finished_processing ∧
    st'.finalized = st.finalized := by
  rw [executePushInternal] at heq
  cases hsk : pipe.sink with
  | none => rw [hsk] at heq; cases heq
  | some sink =>
    rw [hsk] at heq
    dsimp only [] at heq
    by_cases hin0 : input.length = 0
    · rw [if_pos hin0] at heq
      obtain ⟨rfl, rfl⟩ : OperatorResultType.NEED_MORE_INPUT = r ∧ st = st' := by
        injection heq with h1
        injection h1 with h2 h3
        injection h3 with h4 h5
        exact ⟨h2, h4⟩
      exact ⟨rfl, fun _ _ => rfl, rfl, rfl⟩
    · rw [if_neg hin0] at heq
      exact pushLoop_inv pipe sink input initial fuel st [] [] r st' tr sunk heq

/-- C2: in `CacheChunk`, whenever the cache slot exists,
`prev_chunk.size() ≥ THRESHOLD` and `current_chunk.size() < THRESHOLD`, the
current chunk is appended to the cache; then if the cache size reaches
`VECTOR_SIZE − THRESHOLD` the cache contents move into `current_chunk` and
the cache is reinitialized, otherwise `current_chunk` is reset to zero rows.
If the condition does not hold (including a missing slot), `current_chunk`
and the slot are left unchanged. -/
theorem claim_C2_cache_chunk (prev cur cc : Chunk) :
    (CACHE_THRESHOLD ≤ prev.length ∧ cur.length < CACHE_THRESHOLD →
      (STANDARD_VECTOR_SIZE - CACHE_THRESHOLD ≤ (cc ++ cur).length →
        cacheChunk prev cur (some cc) = (cc ++ cur, some [])) ∧
      ((cc ++ cur).length < STANDARD_VECTOR_SIZE - CACHE_THRESHOLD →
        cacheChunk prev cur (some cc) = ([], some (cc ++ cur)))) ∧
    (¬(CACHE_THRESHOLD ≤ prev.length ∧ cur.length < CACHE_THRESHOLD) →
      cacheChunk prev cur (some cc) = (cur, some cc)) ∧
    cacheChunk prev cur none = (cur, none) := by
  refine ⟨fun hcond => ⟨fun hfull => ?_, fun hnotfull => ?_⟩,
          fun hnot => ?_, ?_⟩ <;>
    simp only [cacheChunk, STANDARD_VECTOR_SIZE, CACHE_THRESHOLD] at * <;>
    split_ifs <;> first | rfl | omega

set_option maxRecDepth 8000 in
/-- C2 witness: a concrete instance exercising the cache-full branch. -/
theorem claim_C2_cache_chunk_witness :
    (CACHE_THRESHOLD ≤ (List.replicate 200 0 : Chunk).length ∧
      ([] : Chunk).length < CACHE_THRESHOLD) ∧
    (STANDARD_VECTOR_SIZE - CACHE_THRESHOLD ≤
      ((List.replicate 900 1 : Chunk) ++ ([] : Chunk)).length) ∧
    cacheChunk (List.replicate 200 0) [] (some (List.replicate 900 1)) =
      (List.replicate 900 1 ++ [], some []) := by
  have h1 : CACHE_THRESHOLD ≤ (List.replicate 200 0 : Chunk).length ∧
      ([] : Chunk).length < CACHE_THRESHOLD := by decide
  have h2 : STANDARD_VECTOR_SIZE - CACHE_THRESHOLD ≤
      ((List.replicate 900 1 : Chunk) ++ ([] : Chunk)).length := by decide
  exact ⟨h1, h2,
    ((claim_C2_cache_chunk (List.replicate 200 0) [] (List.replicate 900 1)).1
      h1).1 h2⟩

/-- The exact token sequence `WriteSchema` appends to the metadata stream,
given the table-data stream length `tdlen` at the start of the schema. -/
def schemaTokens (B : Nat) (tdlen : Nat) (s : SchemaData) : List MetaToken :=
  .schemaEntry s.name ::
  .u32 s.sequences.length :: (s.sequences.map MetaToken.sequenceEntry ++
  .u32 s.tables.length :: (tablesTokens B tdlen s.tables ++
  .u32 s.views.length :: (s.views.map MetaToken.viewEntry ++
  .u32 s.macroDefs.length :: s.macroDefs.map MetaToken.macroEntry)))

/-- Helper: reading at the cursor of a stream prefix reads the suffix. -/
theorem stream_get0 (before rest : List MetaToken) :
    (before ++ rest).get? before.length = rest.get? 0 := by
  rw [List.get?_append_right (Nat.le_refl _)]
  simp

/-- Helper: reading `k` past the cursor of a stream prefix. -/
theorem stream_get_at (before rest : List MetaToken) (k : Nat) :
    (before ++ rest).get? (before.length + k) = rest.get? k := by
  rw [List.get?_append_right (by omega)]
  congr 1
  omega

/-- Helper: `writeTables` appends `tablesTokens` to the metadata stream and
one payload per table to the table-data stream. -/
theorem writeTables_spec (B : Nat) (ts : List TableData) :
    ∀ (md td : List MetaToken),
      writeTables B md td ts =
        (md ++ tablesTokens B td.length ts,
         td ++ ts.map fun t => .tableDataPayload t.rows) := by
  induction ts with
  | nil => intro md td; simp [writeTables, tablesTokens]
  | cons t ts ih =>
    intro md td
    simp only [writeTables, writeTable, tablesTokens, tableTokens]
    rw [ih]
    simp [List.append_assoc]

/-- Helper: `readSequences` consumes exactly the written sequence entries. -/
theorem readSequences_cursor (names : List Nat) :
    ∀ (before rest : List MetaToken),
      readSequences (before ++ (names.map MetaToken.sequenceEntry ++ rest))
          names.length before.length =
        .ok (names, before.length + names.length) := by
  induction names with
  | nil => intro before rest; simp [readSequences]
  | cons x xs ih =>
    intro before rest
    have hget : (before ++ ((x :: xs).map MetaToken.sequenceEntry ++ rest)).get?
        before.length = some (.sequenceEntry x) := by
      rw [stream_get0]; rfl
    have hIH := ih (before ++ [.sequenceEntry x]) rest
    simp only [List.append_assoc, List.singleton_append, List.cons_append,
      List.length_append, List.length_cons, List.length_nil, List.nil_append,
      Nat.zero_add] at hIH
    simp only [List.map_cons, List.cons_append] at hget ⊢
    simp only [List.length_cons, readSequences, hget]
    rw [hIH]
    simp only [Except.ok.injEq, Prod.mk.injEq]
    exact ⟨trivial, by omega⟩

/-- Helper: `readViews` consumes exactly the written view entries. -/
theorem readViews_cursor (names : List Nat) :
    ∀ (before rest : List MetaToken),
      readViews (before ++ (names.map MetaToken.viewEntry ++ rest))
          names.length before.length =
        .ok (names, before.length + names.length) := by
  induction names with
  | nil => intro before rest; simp [readViews]
  | cons x xs ih =>
    intro before rest
    have hget : (before ++ ((x :: xs).map MetaToken.viewEntry ++ rest)).get?
        before.length = some (.viewEntry x) := by
      rw [stream_get0]; rfl
    have hIH := ih (before ++ [.viewEntry x]) rest
    simp only [List.append_assoc, List.singleton_append, List.cons_append,
      List.length_append, List.length_cons, List.length_nil, List.nil_append,
      Nat.zero_add] at hIH
    simp only [List.map_cons, List.cons_append] at hget ⊢
    simp only [List.length_cons, readViews, hget]
    rw [hIH]
    simp only [Except.ok.injEq, Prod.mk.injEq]
    exact ⟨trivial, by omega⟩

/-- Helper: `readMacros` consumes exactly the written macro entries. -/
theorem readMacros_cursor (names : List Nat) :
    ∀ (before rest : List MetaToken),
      readMacros (before ++ (names.map MetaToken.macroEntry ++ rest))
          names.length before.length =
        .ok (names, before.length + names.length) := by
  induction names with
  | nil => intro before rest; simp [readMacros]
  | cons x xs ih =>
    intro before rest
    have hget : (before ++ ((x :: xs).map MetaToken.macroEntry ++ rest)).get?
        before.length = some (.macroEntry x) := by
      rw [stream_get0]; rfl
    have hIH := ih (before ++ [.macroEntry x]) rest
    simp only [List.append_assoc, List.singleton_append, List.cons_append,
      List.length_append, List.length_cons, List.length_nil, List.nil_append,
      Nat.zero_add] at hIH
    simp only [List.map_cons, List.cons_append] at hget ⊢
    simp only [List.length_cons, readMacros, hget]
    rw [hIH]
    simp only [Except.ok.injEq, Prod.mk.injEq]
    exact ⟨trivial, by omega⟩

/-- Helper: the pointer written for a table-data tip reconstructs the tip. -/
theorem tip_roundtrip (B L : Nat) : ((L / B : Nat) : Int).toNat * B + L % B = L := by
  have h1 : ((L / B : Nat) : Int).toNat = L / B := Int.toNat_natCast _
  rw [h1, Nat.mul_comm]
  exact Nat.div_add_mod L B

/-- Helper: `readTable` at the cursor recreates the table written by
`writeTable`, opening the second reader at exactly the recorded tip. -/
theorem readTable_cursor (B : Nat) (t : TableData)
    (beforeMd restMd beforeTd restTd : List MetaToken) :
    readTable B (beforeMd ++ (tableTokens B beforeTd.length t ++ restMd))
        beforeMd.length
        (beforeTd ++ .tableDataPayload t.rows :: restTd) =
      .ok (t, beforeMd.length + 3, beforeTd.length) := by
  have h0 : (beforeMd ++ (tableTokens B beforeTd.length t ++ restMd)).get?
      beforeMd.length = some (.tableEntry t.name) := by
    rw [stream_get0]; rfl
  have h1 : (beforeMd ++ (tableTokens B beforeTd.length t ++ restMd)).get?
      (beforeMd.length + 1) = some (.blockPtr (beforeTd.length / B : Nat)) := by
    rw [stream_get_at]; rfl
  have h2 : (beforeMd ++ (tableTokens B beforeTd.length t ++ restMd)).get?
      (beforeMd.length + 2) = some (.u64 (beforeTd.length % B)) := by
    rw [stream_get_at]; rfl
  have hd : (beforeTd ++ .tableDataPayload t.rows :: restTd).get?
      beforeTd.length = some (.tableDataPayload t.rows) := by
    rw [stream_get0]; rfl
  simp only [readTable, readBlockPtr, readU64, h0, h1, h2, tip_roundtrip, hd]

/-- Helper: `readTables` consumes exactly the tables written by
`writeTables`, following each table-data pointer. -/
theorem readTables_cursor (B : Nat) (ts : List TableData) :
    ∀ (beforeMd restMd beforeTd restTd : List MetaToken),
      readTables B
          (beforeMd ++ (tablesTokens B beforeTd.length ts ++ restMd))
          (beforeTd ++ ((ts.map fun t => .tableDataPayload t.rows) ++ restTd))
          ts.length beforeMd.length =
        .ok (ts, beforeMd.length + (tablesTokens B beforeTd.length ts).length) := by
  induction ts with
  | nil => intro beforeMd restMd beforeTd restTd; simp [readTables, tablesTokens]
  | cons t ts ih =>
    intro beforeMd restMd beforeTd restTd
    have htab := readTable_cursor B t beforeMd
      (tablesTokens B (beforeTd.length + 1) ts ++ restMd) beforeTd
      ((ts.map fun t' => .tableDataPayload t'.rows) ++ restTd)
    have hIH := ih (beforeMd ++ tableTokens B beforeTd.length t) restMd
      (beforeTd ++ [.tableDataPayload t.rows]) restTd
    simp only [List.append_assoc, List.length_append, List.length_cons,
      List.length_nil, List.singleton_append, List.cons_append,
      tableTokens] at htab hIH ⊢
    simp only [List.length_cons, readTables, tablesTokens, tableTokens,
      List.map_cons, List.cons_append, List.append_assoc] at htab hIH ⊢
    rw [htab]
    simp only [List.nil_append, Nat.zero_add, Nat.reduceAdd] at hIH
    simp only [List.nil_append]
    rw [hIH]
    simp only [Except.ok.injEq, Prod.mk.injEq, List.cons.injEq]
    refine ⟨trivial, by omega⟩

/-- C6: `WriteSchema` emits, in order: the serialized schema, then
`u32 sequence_count` and the sequences, then `u32 table_count` and the
tables, then `u32 view_count` and the views, then `u32 macro_count` and the
macro entries; `ReadSchema` consumes the stream in exactly that order and
recreates every entry written. -/
theorem claim_C6_schema_roundtrip (B : Nat) (md td : List MetaToken)
    (s : SchemaData) :
    writeSchema B md td s =
      (md ++ schemaTokens B td.length s,
       td ++ s.tables.map fun t => .tableDataPayload t.rows) ∧
    ∀ (mdAfter tdAfter : List MetaToken),
      readSchema B (md ++ (schemaTokens B td.length s ++ mdAfter)) md.length
          (td ++ ((s.tables.map fun t => .tableDataPayload t.rows) ++ tdAfter)) =
        .ok (s, md.length + (schemaTokens B td.length s).length) := by
  constructor
  · simp only [writeSchema, writeTables_spec, schemaTokens]
    simp [List.append_assoc]
  · intro mdAfter tdAfter
    simp only [schemaTokens, List.cons_append, List.append_assoc]
    have h0 : (md ++ .schemaEntry s.name :: .u32 s.sequences.length ::
        (s.sequences.map MetaToken.sequenceEntry ++ .u32 s.tables.length ::
        (tablesTokens B td.length s.tables ++ .u32 s.views.length ::
        (s.views.map MetaToken.viewEntry ++ .u32 s.macroDefs.length ::
        (s.macroDefs.map MetaToken.macroEntry ++ mdAfter))))).get? md.length =
        some (.schemaEntry s.name) := by
      rw [stream_get0]; rfl
    have hA : readU32 (md ++ .schemaEntry s.name :: .u32 s.sequences.length ::
        (s.sequences.map MetaToken.sequenceEntry ++ .u32 s.tables.length ::
        (tablesTokens B td.length s.tables ++ .u32 s.views.length ::
        (s.views.map MetaToken.viewEntry ++ .u32 s.macroDefs.length ::
        (s.macroDefs.map MetaToken.macroEntry ++ mdAfter))))) (md.length + 1) =
        .ok (s.sequences.length, md.length + 2) := by
      have hg := stream_get_at md (.schemaEntry s.name ::
        .u32 s.sequences.length :: (s.sequences.map MetaToken.sequenceEntry ++
        .u32 s.tables.length :: (tablesTokens B td.length s.tables ++
        .u32 s.views.length :: (s.views.map MetaToken.viewEntry ++
        .u32 s.macroDefs.length :: (s.macroDefs.map MetaToken.macroEntry ++ mdAfter))))) 1
      simp only [readU32, hg]
      rfl
    have hB := readSequences_cursor s.sequences
      (md ++ [.schemaEntry s.name, .u32 s.sequences.length])
      (.u32 s.tables.length :: (tablesTokens B td.length s.tables ++
        .u32 s.views.length :: (s.views.map MetaToken.viewEntry ++
        .u32 s.macroDefs.length :: (s.macroDefs.map MetaToken.macroEntry ++ mdAfter))))
    simp only [List.append_assoc, List.cons_append, List.nil_append,
      List.length_append, List.length_cons, List.length_nil,
      List.length_map, List.singleton_append, Nat.zero_add, Nat.reduceAdd] at hB
    have hC : readU32 (md ++ .schemaEntry s.name :: .u32 s.sequences.length ::
        (s.sequences.map MetaToken.sequenceEntry ++ .u32 s.tables.length ::
        (tablesTokens B td.length s.tables ++ .u32 s.views.length ::
        (s.views.map MetaToken.viewEntry ++ .u32 s.macroDefs.length ::
        (s.macroDefs.map MetaToken.macroEntry ++ mdAfter)))))
        (md.length + 2 + s.sequences.length) =
        .ok (s.tables.length, md.length + 2 + s.sequences.length + 1) := by
      have hg := stream_get0
        ((md ++ [.schemaEntry s.name, .u32 s.sequences.length]) ++
          s.sequences.map MetaToken.sequenceEntry)
        (.u32 s.tables.length :: (tablesTokens B td.length s.tables ++
          .u32 s.views.length :: (s.views.map MetaToken.viewEntry ++
          .u32 s.macroDefs.length :: (s.macroDefs.map MetaToken.macroEntry ++ mdAfter))))
      simp only [List.append_assoc, List.cons_append, List.nil_append,
        List.length_append, List.length_cons, List.length_nil,
        List.length_map, List.singleton_append, Nat.zero_add, Nat.reduceAdd] at hg
      ring_nf at hg ⊢
      simp only [readU32, hg, List.get?_cons_zero]
      simp only [Except.ok.injEq, Prod.mk.injEq]
      refine ⟨trivial, by omega⟩
    have hD := readTables_cursor B s.tables
      ((md ++ [.schemaEntry s.name, .u32 s.sequences.length]) ++
        s.sequences.map MetaToken.sequenceEntry ++ [.u32 s.tables.length])
      (.u32 s.views.length :: (s.views.map MetaToken.viewEntry ++
        .u32 s.macroDefs.length :: (s.macroDefs.map MetaToken.macroEntry ++ mdAfter)))
      td tdAfter
    simp only [List.append_assoc, List.cons_append, List.nil_append,
      List.length_append, List.length_cons, List.length_nil,
      List.length_map, List.singleton_append, Nat.zero_add, Nat.reduceAdd] at hD
    have hE : readU32 (md ++ .schemaEntry s.name :: .u32 s.sequences.length ::
        (s.sequences.map MetaToken.sequenceEntry ++ .u32 s.tables.length ::
        (tablesTokens B td.length s.tables ++ .u32 s.views.length ::
        (s.views.map MetaToken.viewEntry ++ .u32 s.macroDefs.length ::
        (s.macroDefs.map MetaToken.macroEntry ++ mdAfter)))))
        (md.length + 2 + s.sequences.length + 1 +
          (tablesTokens B td.length s.tables).length) =
        .ok (s.views.length, md.length + 2 + s.sequences.length + 1 +
          (tablesTokens B td.length s.tables).length + 1) := by
      have hg := stream_get0
        ((md ++ [.schemaEntry s.name, .u32 s.sequences.length]) ++
          s.sequences.map MetaToken.sequenceEntry ++ [.u32 s.tables.length] ++
          tablesTokens B td.length s.tables)
        (.u32 s.views.length :: (s.views.map MetaToken.viewEntry ++
          .u32 s.macroDefs.length :: (s.macroDefs.map MetaToken.macroEntry ++ mdAfter)))
      simp only [List.append_assoc, List.cons_append, List.nil_append,
        List.length_append, List.length_cons, List.length_nil,
        List.length_map, List.singleton_append, Nat.zero_add, Nat.reduceAdd] at hg
      ring_nf at hg ⊢
      simp only [readU32, hg, List.get?_cons_zero]
      simp only [Except.ok.injEq, Prod.mk.injEq]
      refine ⟨trivial, by omega⟩
    have hF := readViews_cursor s.views
      ((md ++ [.schemaEntry s.name, .u32 s.sequences.length]) ++
        s.sequences.map MetaToken.sequenceEntry ++ [.u32 s.tables.length] ++
        tablesTokens B td.length s.tables ++ [.u32 s.views.length])
      (.u32 s.macroDefs.length :: (s.macroDefs.map MetaToken.macroEntry ++ mdAfter))
    simp only [List.append_assoc, List.cons_append, List.nil_append,
      List.length_append, List.length_cons, List.length_nil,
      List.length_map, List.singleton_append, Nat.zero_add, Nat.reduceAdd] at hF
    have hG : readU32 (md ++ .schemaEntry s.name :: .u32 s.sequences.length ::
        (s.sequences.map MetaToken.sequenceEntry ++ .u32 s.tables.length ::
        (tablesTokens B td.length s.tables ++ .u32 s.views.length ::
        (s.views.map MetaToken.viewEntry ++ .u32 s.macroDefs.length ::
        (s.macroDefs.map MetaToken.macroEntry ++ mdAfter)))))
        (md.length + 2 + s.sequences.length + 1 +
          (tablesTokens B td.length s.tables).length + 1 + s.views.length) =
        .ok (s.macroDefs.length, md.length + 2 + s.sequences.length + 1 +
          (tablesTokens B td.length s.tables).length + 1 + s.views.length + 1) := by
      have hg := stream_get0
        ((md ++ [.schemaEntry s.name, .u32 s.sequences.length]) ++
          s.sequences.map MetaToken.sequenceEntry ++ [.u32 s.tables.length] ++
          tablesTokens B td.length s.tables ++ [.u32 s.views.length] ++
          s.views.map MetaToken.viewEntry)
        (.u32 s.macroDefs.length :: (s.macroDefs.map MetaToken.macroEntry ++ mdAfter))
      simp only [List.append_assoc, List.cons_append, List.nil_append,
        List.length_append, List.length_cons, List.length_nil,
        List.length_map, List.singleton_append, Nat.zero_add, Nat.reduceAdd] at hg
      ring_nf at hg ⊢
      simp only [readU32, hg, List.get?_cons_zero]
      simp only [Except.ok.injEq, Prod.mk.injEq]
      refine ⟨trivial, by omega⟩
    have hH := readMacros_cursor s.macroDefs
      ((md ++ [.schemaEntry s.name, .u32 s.sequences.length]) ++
        s.sequences.map MetaToken.sequenceEntry ++ [.u32 s.tables.length] ++
        tablesTokens B td.length s.tables ++ [.u32 s.views.length] ++
        s.views.map MetaToken.viewEntry ++ [.u32 s.macroDefs.length])
      mdAfter
    simp only [List.append_assoc, List.cons_append, List.nil_append,
      List.length_append, List.length_cons, List.length_nil,
      List.length_map, List.singleton_append, Nat.zero_add, Nat.reduceAdd] at hH
    unfold readSchema
    rw [h0]
    ring_nf at hA hB hC hD hE hF hG hH ⊢
    simp only [hA, hB, hC, hD, hE, hF, hG, hH]
    simp only [Except.ok.injEq, Prod.mk.injEq]
    refine ⟨trivial, ?_⟩
    simp only [List.length_append, List.length_cons, List.length_map]
    omega

/-- C7: `WriteTable` serializes the table's catalog entry into the metadata
stream, then the block id and `u64` offset of the table-data stream's tip,
then the table's data into the table-data stream; `ReadTable` reads the
entry, then the block id and offset, and opens a second reader positioned at
exactly that block and offset (the recorded tip) before reading the table
data and recreating the table. -/
theorem claim_C7_table_roundtrip (B : Nat) (md td : List MetaToken)
    (t : TableData) :
    writeTable B md td t =
      (md ++ tableTokens B td.length t, td ++ [.tableDataPayload t.rows]) ∧
    ∀ (mdAfter tdAfter : List MetaToken),
      readTable B (md ++ (tableTokens B td.length t ++ mdAfter)) md.length
          (td ++ .tableDataPayload t.rows :: tdAfter) =
        .ok (t, md.length + 3, td.length) := by
  constructor
  · simp [writeTable, tableTokens, List.append_assoc]
  · intro mdAfter tdAfter
    exact readTable_cursor B t md mdAfter td tdAfter

/-- C8: a cache slot `cached_chunks[i]` is allocated for operator `i` iff a
sink exists, the sink does not require preserved input order, the operator
declares `RequiresCache()`, and every output type is cacheable in the
recursive sense (`CacheableSpec`: not LIST, not MAP, STRUCT iff all children
cacheable). -/
theorem claim_C8_cache_slot_allocation {σ τ : Type} (sink : Option (Sink τ))
    (ops : List (Operator σ)) (i : Nat) (op : Operator σ)
    (hop : ops.get? i = some op) :
    (buildCachedChunks sink ops).get? i = some (some ([] : Chunk)) ↔
      ((∃ s, sink = some s ∧ s.sinkOrderMatters = false) ∧
        op.requiresCache = true ∧ ∀ t ∈ op.types, CacheableSpec t) := by
  have hiff : (op.types.all canCacheType = true) ↔
      ∀ t ∈ op.types, CacheableSpec t := by
    rw [List.all_eq_true]
    exact ⟨fun h t ht => (canCacheType_iff t).mp (h t ht),
           fun h t ht => (canCacheType_iff t).mpr (h t ht)⟩
  unfold buildCachedChunks
  rw [List.get?_map, hop]
  cases sink with
  | none => simp
  | some s =>
    by_cases hc : s.sinkOrderMatters = false ∧ op.requiresCache = true ∧
        op.types.all canCacheType
    · simp only [Option.map_some', if_pos hc]
      constructor
      · intro _; exact ⟨⟨s, rfl, hc.1⟩, hc.2.1, hiff.mp hc.2.2⟩
      · intro _; trivial
    · simp only [Option.map_some', if_neg hc]
      constructor
      · intro h; exact absurd h (by simp)
      · rintro ⟨⟨s', hs', ho⟩, hr, hall⟩
        obtain rfl : s = s' := by injection hs'
        exact absurd ⟨ho, hr, hiff.mpr hall⟩ hc

/-- C8 witness: in a pipeline with an order-agnostic sink, a caching operator
with a cacheable STRUCT output type gets a slot. -/
theorem claim_C8_cache_slot_allocation_witness :
    ([{ idOp with types := [.STRUCT [.INTEGER, .VARCHAR]] }] :
        List (Operator Nat)).get? 0 =
      some { idOp with types := [.STRUCT [.INTEGER, .VARCHAR]] } ∧
    ((buildCachedChunks (some { countSink with sinkOrderMatters := false })
        [{ idOp with types := [.STRUCT [.INTEGER, .VARCHAR]] }]).get? 0 =
          some (some ([] : Chunk)) ↔
      ((∃ s, (some { countSink with sinkOrderMatters := false } :
                Option (Sink Nat)) = some s ∧ s.sinkOrderMatters = false) ∧
        ({ idOp with types := [.STRUCT [.INTEGER, .VARCHAR]] } :
            Operator Nat).requiresCache = true ∧
        ∀ t ∈ ({ idOp with types := [.STRUCT [.INTEGER, .VARCHAR]] } :
            Operator Nat).types, CacheableSpec t)) :=
  ⟨rfl, claim_C8_cache_slot_allocation _ _ 0 _ rfl⟩

/-- C9: if the stored `meta_block` is negative (the sentinel for "no prior
image"), `LoadFromStorage` returns immediately: no reader is opened and no
catalog entry is created. -/
theorem claim_C9_load_empty_storage (B : Nat) (meta_block : Int)
    (md td : List MetaToken) (h : meta_block < 0) :
    loadFromStorage B meta_block md td = .ok (false, []) := by
  simp [loadFromStorage, h]

/-- C9 witness: the sentinel value `-1`. -/
theorem claim_C9_load_empty_storage_witness :
    ((-1 : Int) < 0) ∧
      loadFromStorage 4 (-1) [.u32 3] [.u64 0] = .ok (false, []) :=
  ⟨by decide, claim_C9_load_empty_storage 4 (-1) [.u32 3] [.u64 0] (by decide)⟩

/-- C10: pushing an empty chunk is a no-op: `ExecutePushInternal` returns
`NEED_MORE_INPUT` with the executor state unchanged, no operator invoked and
nothing sunk; likewise the inner `Execute` returns `NEED_MORE_INPUT`
immediately on empty input with its state untouched. -/
theorem claim_C10_empty_input_noop {σ τ ρ : Type} (fuel : Nat) (intr : Bool)
    (pipe : Pipeline σ τ ρ) (st : ExecState σ τ ρ) (initial_idx : Nat)
    (s : Sink τ) (hs : pipe.sink = some s) :
    executePushInternal fuel intr pipe st [] initial_idx =
      .ok (.NEED_MORE_INPUT, st, [], []) ∧
    ∀ (ops : List (Operator σ)) (ls : LoopState σ),
      pipelineExecute fuel intr ops [] initial_idx ls =
        .ok (.NEED_MORE_INPUT, ls) := by
  constructor
  · simp [executePushInternal, hs]
  · intro ops ls
    simp [pipelineExecute]

/-- C10 witness: the identity pipeline with an empty input chunk. -/
theorem claim_C10_empty_input_noop_witness :
    pipeId.sink = some { countSink with sinkOrderMatters := false } ∧
    executePushInternal 5 false pipeId (initExecState pipeId) [] 0 =
      .ok (.NEED_MORE_INPUT, initExecState pipeId, [], []) :=
  ⟨rfl, (claim_C10_empty_input_noop 5 false pipeId (initExecState pipeId) 0 _
    rfl).1⟩

/-- Helper: the cache-flush loop of `PushFinalize`.  Slots below the start
index are preserved, the flush calls are listed in strictly increasing
cache-index order, each flush call targets an in-range slot with a non-empty
chunk and `initial_idx = cache_idx + 1`, and every visited slot ends up
holding no rows. -/
theorem flushCachesAux_spec {σ τ ρ : Type} (fuel : Nat)
    (pipe : Pipeline σ τ ρ) :
    ∀ (rem i : Nat) (st st' : ExecState σ τ ρ) (fs : List FlushCall),
      flushCachesAux fuel false pipe rem i st = .ok (st', fs) →
      st'.cached_chunks.length = st.cached_chunks.length ∧
      (∀ j < i, st'.cached_chunks.get? j = st.cached_chunks.get? j) ∧
      List.Chain' (fun a b => a.cache_idx < b.cache_idx) fs ∧
      (∀ fc ∈ fs, i ≤ fc.cache_idx ∧ fc.cache_idx < i + rem ∧
        fc.initial_idx = fc.cache_idx + 1 ∧ 0 < fc.chunk.length) ∧
      (∀ j, i ≤ j → j < i + rem → ∀ c,
        st'.cached_chunks.get? j = some (some c) → c = []) ∧
      st'.finished_processing = st.finished_processing ∧
      st'.finalized = st.finalized := by
  intro rem
  induction rem with
  | zero =>
    intro i st st' fs heq
    obtain ⟨rfl, rfl⟩ : st = st' ∧ [] = fs := by
      rw [flushCachesAux] at heq
      injection heq with h1
      injection h1 with h2 h3
      exact ⟨h2, h3⟩
    exact ⟨rfl, fun _ _ => rfl, List.chain'_nil, fun fc hfc => absurd hfc
      (List.not_mem_nil fc), fun j hj hj' => absurd (lt_of_le_of_lt hj hj')
      (by omega), rfl, rfl⟩
  | succ rem ih =>
    intro i st st' fs heq
    rw [flushCachesAux] at heq
    cases hgi : st.cached_chunks.get? i with
    | none =>
      rw [hgi] at heq
      obtain ⟨H1, H2, H3, H4, H5, H6, H7⟩ := ih (i + 1) st st' fs heq
      refine ⟨H1, fun j hj => H2 j (by omega), H3, ?_, ?_, H6, H7⟩
      · intro fc hfc
        obtain ⟨ha, hb, hc', hd⟩ := H4 fc hfc
        exact ⟨by omega, by omega, hc', hd⟩
      · intro j hj hj' c hc
        by_cases hji : j = i
        · subst hji
          rw [H2 j (by omega), hgi] at hc
          cases hc
        · exact H5 j (by omega) (by omega) c hc
    | some oc =>
      cases oc with
      | none =>
        rw [hgi] at heq
        obtain ⟨H1, H2, H3, H4, H5, H6, H7⟩ := ih (i + 1) st st' fs heq
        refine ⟨H1, fun j hj => H2 j (by omega), H3, ?_, ?_, H6, H7⟩
        · intro fc hfc
          obtain ⟨ha, hb, hc', hd⟩ := H4 fc hfc
          exact ⟨by omega, by omega, hc', hd⟩
        · intro j hj hj' c hc
          by_cases hji : j = i
          · subst hji
            rw [H2 j (by omega), hgi] at hc
            cases hc
          · exact H5 j (by omega) (by omega) c hc
      | some c =>
        rw [hgi] at heq
        dsimp only [] at heq
        by_cases hcl : 0 < c.length
        · rw [if_pos hcl] at heq
          cases hep : executePushInternal fuel false pipe st c (i + 1) with
          | error e => rw [hep] at heq; cases heq
          | ok rq =>
            obtain ⟨r1, st1, tr1, sunk1⟩ := rq
            rw [hep] at heq
            dsimp only [] at heq
            obtain ⟨E1, E2, E3, E4⟩ := executePushInternal_inv fuel pipe st c
              (i + 1) r1 st1 tr1 sunk1 hep
            cases hrec : flushCachesAux fuel false pipe rem (i + 1)
                { st1 with cached_chunks := st1.cached_chunks.set i none } with
            | error e => rw [hrec] at heq; cases heq
            | ok q =>
              obtain ⟨st3, fs'⟩ := q
              rw [hrec] at heq
              obtain ⟨hst, hfs⟩ : st3 = st' ∧ FlushCall.mk i c (i + 1) :: fs' = fs := by
                injection heq with h1
                injection h1 with h2 h3
                exact ⟨h2, h3⟩
              subst hst
              subst hfs
              obtain ⟨H1, H2, H3, H4, H5, H6, H7⟩ := ih (i + 1) _ _ _ hrec
              have hilen : i < st1.cached_chunks.length := by
                rw [E1]
                exact (List.get?_eq_some.mp hgi).1
              have hseti : (st1.cached_chunks.set i none).get? i = some none := by
                rw [List.get?_set_eq]
                simp [hilen]
              have hpre : ∀ j < i + 1, st3.cached_chunks.get? j =
                  (st1.cached_chunks.set i none).get? j := by
                intro j hj
                simpa using H2 j hj
              refine ⟨?_, ?_, ?_, ?_, ?_, ?_, ?_⟩
              · rw [H1]
                simp only [List.length_set]
                exact E1
              · intro j hj
                rw [hpre j (by omega), List.get?_set_ne _ _ (by omega),
                  E2 j (by omega)]
              · rw [List.chain'_cons']
                refine ⟨?_, H3⟩
                intro b hb
                have hmem : b ∈ fs' := List.mem_of_mem_head? hb
                have := (H4 b hmem).1
                exact lt_of_lt_of_le (Nat.lt_succ_self i) this
              · intro fc hfc
                rcases List.mem_cons.mp hfc with rfl | hfc'
                · exact ⟨le_refl _, Nat.lt_succ_of_le (Nat.le_add_right i rem),
                    rfl, hcl⟩
                · obtain ⟨ha, hb, hc', hd⟩ := H4 fc hfc'
                  exact ⟨by omega, by omega, hc', hd⟩
              · intro j hj hj' d hd
                by_cases hji : j = i
                · subst hji
                  rw [hpre j (by omega), hseti] at hd
                  cases hd
                · exact H5 j (by omega) (by omega) d hd
              · rw [H6]
                exact E3
              · rw [H7]
                exact E4
        · rw [if_neg hcl] at heq
          obtain ⟨H1, H2, H3, H4, H5, H6, H7⟩ := ih (i + 1) st st' fs heq
          refine ⟨H1, fun j hj => H2 j (by omega), H3, ?_, ?_, H6, H7⟩
          · intro fc hfc
            obtain ⟨ha, hb, hc', hd⟩ := H4 fc hfc
            exact ⟨by omega, by omega, hc', hd⟩
          · intro j hj hj' d hd
            by_cases hji : j = i
            · subst hji
              rw [H2 j (by omega), hgi] at hd
              injection hd with h1
              injection h1 with h2
              subst h2
              exact List.eq_nil_of_length_eq_zero (by omega)
            · exact H5 j (by omega) (by omega) d hd

/-- Helper: full characterization of a successful `PushFinalize` call: the
state was not yet finalized, the result is finalized with the local sink
state consumed and `Combine` invoked, the flush calls target distinct slots
in increasing order with non-empty chunks and `initial_idx = cache_idx + 1`,
and — unless `finished_processing` had been set, in which case nothing is
flushed — every cache slot ends up holding no rows. -/
theorem pushFinalize_spec {σ τ ρ : Type} (fuel : Nat) (pipe : Pipeline σ τ ρ)
    (st st' : ExecState σ τ ρ) (fs : List FlushCall) (combined : Bool)
    (heq : pushFinalize fuel false pipe st = .ok (st', fs, combined)) :
    st.finalized = false ∧
    st'.finalized = true ∧
    combined = true ∧
    st'.local_sink_state = none ∧
    st'.finished_processing = st.finished_processing ∧
    st'.cached_chunks.length = st.cached_chunks.length ∧
    List.Chain' (fun a b => a.cache_idx < b.cache_idx) fs ∧
    (∀ fc ∈ fs, fc.initial_idx = fc.cache_idx + 1 ∧ 0 < fc.chunk.length ∧
      fc.cache_idx < st.cached_chunks.length) ∧
    (st.finished_processing = true →
      fs = [] ∧ st'.cached_chunks = st.cached_chunks) ∧
    (st.finished_processing = false →
      ∀ j c, st'.cached_chunks.get? j = some (some c) → c = []) := by
  rw [pushFinalize] at heq
  by_cases hfin : st.finalized = true
  · rw [if_pos hfin] at heq
    cases heq
  · rw [if_neg hfin] at heq
    dsimp only [] at heq
    by_cases hfp : st.finished_processing = true
    · rw [if_pos hfp] at heq
      dsimp only [] at heq
      cases hlss : st.local_sink_state with
      | none => rw [hlss] at heq; cases heq
      | some lss =>
        rw [hlss] at heq
        dsimp only [] at heq
        cases hps : pipe.sink with
        | none => rw [hps] at heq; cases heq
        | some sk =>
          rw [hps] at heq
          obtain ⟨hst, hfs, hcb⟩ :
              _ = st' ∧ ([] : List FlushCall) = fs ∧ true = combined := by
            injection heq with h1
            injection h1 with h2 h3
            injection h3 with h4 h5
            exact ⟨h2, h4, h5⟩
          subst hst
          subst hfs
          subst hcb
          refine ⟨by simpa using hfin, rfl, rfl, rfl, by simp [hfp], rfl,
            List.chain'_nil, fun fc hfc => absurd hfc (List.not_mem_nil fc),
            fun _ => ⟨rfl, rfl⟩, fun h => absurd h (by simp [hfp])⟩
    · rw [if_neg hfp] at heq
      by_cases hemp : st.in_process_operators.isEmpty
      · rw [if_pos hemp] at heq
        cases hfl : flushCachesAux fuel false pipe
            ({ st with finalized := true } : ExecState σ τ ρ).cached_chunks.length
            0 { st with finalized := true } with
        | error e => rw [hfl] at heq; cases heq
        | ok q =>
          obtain ⟨st1, fs0⟩ := q
          rw [hfl] at heq
          dsimp only [] at heq
          obtain ⟨H1, H2, H3, H4, H5, H6, H7⟩ :=
            flushCachesAux_spec fuel pipe _ 0 _ st1 fs0 hfl
          cases hlss : st1.local_sink_state with
          | none => rw [hlss] at heq; cases heq
          | some lss =>
            rw [hlss] at heq
            dsimp only [] at heq
            cases hps : pipe.sink with
            | none => rw [hps] at heq; cases heq
            | some sk =>
              rw [hps] at heq
              obtain ⟨hst, hfs, hcb⟩ :
                  _ = st' ∧ fs0 = fs ∧ true = combined := by
                injection heq with h1
                injection h1 with h2 h3
                injection h3 with h4 h5
                exact ⟨h2, h4, h5⟩
              subst hst
              subst hfs
              subst hcb
              have hlen : st1.cached_chunks.length = st.cached_chunks.length := by
                simpa using H1
              refine ⟨by simpa using hfin, by simpa using H7,
                rfl, rfl, by simpa using H6, hlen, H3, ?_, ?_, ?_⟩
              · intro fc hfc
                obtain ⟨_, hb, hc', hd⟩ := H4 fc hfc
                refine ⟨hc', hd, ?_⟩
                simpa [hlen] using hb
              · intro h
                exact absurd h (by simp [hfp])
              · intro _ j c hc
                by_cases hjl : j < st.cached_chunks.length
                · refine H5 j (Nat.zero_le j) (by simpa using hjl) c ?_
                  simpa using hc
                · exfalso
                  have : st1.cached_chunks.get? j = none :=
                    List.get?_eq_none.mpr (by omega)
                  rw [this] at hc
                  cases hc
      · rw [if_neg hemp] at heq
        cases heq

/-- C4 (amended): a successful `PushFinalize` sets `finalized` and calls
`sink.Combine`; a second call raises an internal error.  Provided
`finished_processing` was not set, the caches are flushed in strictly
increasing operator-index order, each flush re-invoking
`ExecutePushInternal(cache_i, initial_idx = i + 1)` on the non-empty chunk
the slot holds when it is visited (an earlier flush may refill or drain a
later slot before its visit), and afterwards no cache retains non-zero
size.  If `finished_processing` was set, no cache is flushed (and caches
may retain rows). -/
theorem claim_C4_push_finalize {σ τ ρ : Type} (fuel : Nat)
    (pipe : Pipeline σ τ ρ) (st st' : ExecState σ τ ρ) (fs : List FlushCall)
    (combined : Bool)
    (heq : pushFinalize fuel false pipe st = .ok (st', fs, combined)) :
    st'.finalized = true ∧
    combined = true ∧
    pushFinalize fuel false pipe st' =
      .error "InternalException: PushFinalize on a finalized pipeline" ∧
    List.Chain' (fun a b => a.cache_idx < b.cache_idx) fs ∧
    (∀ fc ∈ fs, fc.initial_idx = fc.cache_idx + 1 ∧ 0 < fc.chunk.length ∧
      fc.cache_idx < st.cached_chunks.length) ∧
    (st.finished_processing = false →
      ∀ j c, st'.cached_chunks.get? j = some (some c) → c = []) ∧
    (st.finished_processing = true → fs = []) := by
  obtain ⟨P1, P2, P3, P4, P5, P6, P7, P8, P9, P10⟩ :=
    pushFinalize_spec fuel pipe st st' fs combined heq
  refine ⟨P2, P3, ?_, P7, P8, P10, fun h => (P9 h).1⟩
  rw [pushFinalize, if_pos P2]

/-- C4 counterexample: with `finished_processing` set, `PushFinalize`
returns successfully yet flushes nothing and cache slot 0 still holds a
chunk of non-zero size, contradicting the claim that after `PushFinalize`
returns no cache retains non-zero size. -/
theorem claim_C4_counterexample :
    pushFinalize 5 false pipeId
        { initExecState pipeId with
          finished_processing := true
          cached_chunks := [some [1]] } =
      .ok ({ intermediate_chunks := [[]]
             final_chunk := []
             intermediate_states := [0]
             cached_chunks := [some [1]]
             in_process_operators := []
             finished_processing := true
             finalized := true
             local_sink_state := none
             local_source_state := () }, [], true) ∧
    ([some [1]] : List (Option Chunk)).get? 0 = some (some [1]) ∧
    0 < ([1] : Chunk).length := by
  refine ⟨rfl, rfl, by decide⟩

/-- Witness for the amended C4 theorem: a one-operator pipeline whose single
cache slot holds `[1, 2]`; `PushFinalize` flushes it with
`initial_idx = 1`, clears it and reports `Combine`. -/
theorem claim_C4_push_finalize_witness :
    pushFinalize 10 false pipeId
        { initExecState pipeId with cached_chunks := [some [1, 2]] } =
      .ok ({ intermediate_chunks := [[]]
             final_chunk := [1, 2]
             intermediate_states := [0]
             cached_chunks := [none]
             in_process_operators := []
             finished_processing := false
             finalized := true
             local_sink_state := none
             local_source_state := () },
        [⟨0, [1, 2], 1⟩], true) ∧
    (({ intermediate_chunks := [[]]
        final_chunk := [1, 2]
        intermediate_states := [0]
        cached_chunks := [none]
        in_process_operators := []
        finished_processing := false
        finalized := true
        local_sink_state := none
        local_source_state := () } : ExecState Nat Nat Unit).finalized = true ∧
      true = true ∧
      pushFinalize 10 false pipeId
          { intermediate_chunks := [[]]
            final_chunk := [1, 2]
            intermediate_states := [0]
            cached_chunks := [none]
            in_process_operators := []
            finished_processing := false
            finalized := true
            local_sink_state := none
            local_source_state := () } =
        .error "InternalException: PushFinalize on a finalized pipeline" ∧
      List.Chain' (fun a b => a.cache_idx < b.cache_idx)
        [(⟨0, [1, 2], 1⟩ : FlushCall)] ∧
      (∀ fc ∈ [(⟨0, [1, 2], 1⟩ : FlushCall)],
        fc.initial_idx = fc.cache_idx + 1 ∧ 0 < fc.chunk.length ∧
        fc.cache_idx < ({ initExecState pipeId with
          cached_chunks := [some [1, 2]] }).cached_chunks.length) ∧
      (({ initExecState pipeId with
          cached_chunks := [some [1, 2]] }).finished_processing = false →
        ∀ j c, (([none] : List (Option Chunk))).get? j = some (some c) →
          c = []) ∧
      (({ initExecState pipeId with
          cached_chunks := [some [1, 2]] }).finished_processing = true →
        [(⟨0, [1, 2], 1⟩ : FlushCall)] = [])) :=
  ⟨rfl, claim_C4_push_finalize 10 pipeId
    { initExecState pipeId with cached_chunks := [some [1, 2]] } _ _ _ rfl⟩

/-- C5 (amended): a `FINISHED` observed by the source-driven loop of
`Execute()` sets `finished_processing` and terminates the loop; the public
`ExecutePush` itself never modifies `finished_processing` (even when it
returns `FINISHED` — only `Execute()` sets the flag afterwards); and when
`finished_processing` is set, a subsequent `PushFinalize` flushes no
caches. -/
theorem claim_C5_finished_processing {σ τ ρ : Type} (fuel : Nat)
    (pipe : Pipeline σ τ ρ) :
    (∀ (st st' : ExecState σ τ ρ),
      runSourceLoop false pipe fuel st = .ok (st', true) →
      st'.finished_processing = true) ∧
    (∀ (st st' : ExecState σ τ ρ) (input : Chunk) (r : OperatorResultType)
      (tr : List OpEvent) (sunk : List Chunk),
      executePush fuel false pipe st input = .ok (r, st', tr, sunk) →
      st'.finished_processing = st.finished_processing) ∧
    (∀ (st st' : ExecState σ τ ρ) (fs : List FlushCall) (combined : Bool),
      st.finished_processing = true →
      pushFinalize fuel false pipe st = .ok (st', fs, combined) →
      fs = []) := by
  refine ⟨?_, ?_, ?_⟩
  · induction fuel with
    | zero =>
      intro st st' heq
      exact absurd heq (by simp [runSourceLoop])
    | succ n ih =>
      intro st st' heq
      rw [runSourceLoop] at heq
      simp only [Bool.false_eq_true, if_false] at heq
      rcases hgd : pipe.source.getData st.local_source_state with ⟨chunk, src'⟩
      simp only [hgd] at heq
      by_cases hc0 : chunk.length = 0
      · rw [if_pos hc0] at heq
        injection heq with h1
        injection h1 with h2 h3
        cases h3
      · rw [if_neg hc0] at heq
        cases hep : executePushInternal n false pipe
            { st with
              local_source_state := src'
              intermediate_chunks :=
                if pipe.operators.isEmpty then st.intermediate_chunks
                else st.intermediate_chunks.set 0 chunk
              final_chunk :=
                if pipe.operators.isEmpty then chunk else st.final_chunk }
            chunk 0 with
        | error e => rw [hep] at heq; cases heq
        | ok q =>
          obtain ⟨r, st2, tr2, sunk2⟩ := q
          rw [hep] at heq
          dsimp only [] at heq
          by_cases hr : r = .FINISHED
          · rw [if_pos hr] at heq
            injection heq with h1
            injection h1 with h2 h3
            rw [← h2]
          · rw [if_neg hr] at heq
            exact ih st2 st' heq
  · intro st st' input r tr sunk heq
    exact (executePushInternal_inv fuel pipe st input 0 r st' tr sunk
      heq).2.2.1
  · intro st st' fs combined hfp heq
    exact ((pushFinalize_spec fuel pipe st st' fs combined heq).2.2.2.2.2.2.2.2.1
      hfp).1

/-- C5 counterexample: the public `ExecutePush` (pipeline_executor.cpp:91-93,
`ExecutePushInternal` only) returns `FINISHED` from the sink, yet
`finished_processing` is still `false` afterwards — only the `Execute()`
loop (line 82) sets the flag. -/
theorem claim_C5_counterexample :
    executePush 5 false pipeFin (initExecState pipeFin) [1] =
      .ok (.FINISHED, initExecState pipeFin, [], [[1]]) ∧
    (initExecState pipeFin).finished_processing = false :=
  ⟨rfl, rfl⟩

/-- Witness for the amended C5 theorem: the source-driven loop over a
finishing sink sets `finished_processing`; the public `ExecutePush`
preserves the (false) flag; and `PushFinalize` on a state with
`finished_processing` set flushes nothing. -/
theorem claim_C5_finished_processing_witness :
    (runSourceLoop false pipeSrcFin 5 (initExecState pipeSrcFin) =
        .ok ({ intermediate_chunks := []
               final_chunk := [7]
               intermediate_states := []
               cached_chunks := []
               in_process_operators := []
               finished_processing := true
               finalized := false
               local_sink_state := some 0
               local_source_state := false }, true) ∧
      ({ intermediate_chunks := []
         final_chunk := [7]
         intermediate_states := []
         cached_chunks := []
         in_process_operators := []
         finished_processing := true
         finalized := false
         local_sink_state := some 0
         local_source_state := false } :
           ExecState Nat Nat Bool).finished_processing = true) ∧
    (executePush 5 false pipeFin (initExecState pipeFin) [1] =
        .ok (.FINISHED, initExecState pipeFin, [], [[1]]) ∧
      (initExecState pipeFin).finished_processing =
        (initExecState pipeFin).finished_processing) ∧
    (({ initExecState pipeId with
        finished_processing := true } : ExecState Nat Nat Unit).finished_processing
          = true ∧
      pushFinalize 5 false pipeId
          { initExecState pipeId with finished_processing := true } =
        .ok ({ intermediate_chunks := [[]]
               final_chunk := []
               intermediate_states := [0]
               cached_chunks := [some []]
               in_process_operators := []
               finished_processing := true
               finalized := true
               local_sink_state := none
               local_source_state := () }, [], true) ∧
      ([] : List FlushCall) = []) :=
  ⟨⟨rfl, (claim_C5_finished_processing 5 pipeSrcFin).1
      (initExecState pipeSrcFin) _ rfl⟩,
   ⟨rfl, (claim_C5_finished_processing 5 pipeFin).2.1
      (initExecState pipeFin) _ [1] _ [] [[1]] rfl⟩,
   ⟨rfl, rfl, (claim_C5_finished_processing 5 pipeId).2.2
      { initExecState pipeId with finished_processing := true } _ [] true
      rfl rfl⟩⟩

/-- C3: for every `Execute` call with non-empty input and a non-empty
operator list, if some operator invocation returns `FINISHED` then its
output chunk is empty and `Execute` returns `FINISHED` immediately (the
`FINISHED` event is the last one); otherwise the returned value is
`HAVE_MORE_OUTPUT` iff `in_process_operators` is non-empty on exit, and
`NEED_MORE_INPUT` iff it is empty. -/
theorem claim_C3_execute_result {σ : Type} (fuel : Nat)
    (ops : List (Operator σ)) (input : Chunk) (initial : Nat)
    (ls : LoopState σ) (r : OperatorResultType) (ls' : LoopState σ)
    (Hin : input ≠ []) (Hops : ops ≠ [])
    (Hstk : ∀ x ∈ ls.stack, initial < x ∧ x ≤ ops.length)
    (heq : pipelineExecute fuel false ops input initial ls = .ok (r, ls')) :
    ∃ new, ls'.trace = ls.trace ++ new ∧
      ((∃ ev ∈ new, ev.result = .FINISHED) →
        r = .FINISHED ∧ ∃ pre ev, new = pre ++ [ev] ∧
          ev.result = .FINISHED ∧ ev.out_chunk = [] ∧
          ∀ e ∈ pre, e.result ≠ .FINISHED) ∧
      ((∀ e ∈ new, e.result ≠ .FINISHED) →
        (r = .HAVE_MORE_OUTPUT ↔ ls'.stack ≠ []) ∧
        (r = .NEED_MORE_INPUT ↔ ls'.stack = [])) := by
  obtain ⟨_, _, _, new, htr, hfin, hnfin⟩ :=
    pipelineExecute_spec fuel ops input initial ls r ls' Hin Hstk heq
  refine ⟨new, htr, ?_, ?_⟩
  · rintro ⟨ev, hev, hevf⟩
    by_cases hr : r = .FINISHED
    · exact ⟨hr, hfin hr⟩
    · exact absurd hevf ((hnfin hr).1 ev hev)
  · intro hall
    by_cases hr : r = .FINISHED
    · obtain ⟨pre, ev, hnew, hevf, _, _⟩ := hfin hr
      exact absurd hevf (hall ev (by simp [hnew]))
    · exact (hnfin hr).2

/-- Witness for C3: a single operator that immediately answers
`NEED_MORE_INPUT` with output `[1]`; the loop exits with an empty
`in_process_operators` stack and result `NEED_MORE_INPUT`. -/
theorem claim_C3_execute_result_witness :
    (([5] : Chunk) ≠ [] ∧
      ([opScript 0 (fun n => [n + 1])] : List (Operator Nat)) ≠ [] ∧
      (∀ x ∈ ls3in.stack,
        0 < x ∧ x ≤ ([opScript 0 (fun n => [n + 1])] :
          List (Operator Nat)).length) ∧
      pipelineExecute 5 false [opScript 0 (fun n => [n + 1])] [5] 0 ls3in =
        .ok (.NEED_MORE_INPUT, ls3out)) ∧
    ∃ new, ls3out.trace = ls3in.trace ++ new ∧
      ((∃ ev ∈ new, ev.result = .FINISHED) →
        OperatorResultType.NEED_MORE_INPUT = .FINISHED ∧
        ∃ pre ev, new = pre ++ [ev] ∧ ev.result = .FINISHED ∧
          ev.out_chunk = [] ∧ ∀ e ∈ pre, e.result ≠ .FINISHED) ∧
      ((∀ e ∈ new, e.result ≠ .FINISHED) →
        (OperatorResultType.NEED_MORE_INPUT = .HAVE_MORE_OUTPUT ↔
          ls3out.stack ≠ []) ∧
        (OperatorResultType.NEED_MORE_INPUT = .NEED_MORE_INPUT ↔
          ls3out.stack = [])) :=
  ⟨⟨by decide, List.cons_ne_nil _ _, by decide, rfl⟩,
    claim_C3_execute_result 5 [opScript 0 (fun n => [n + 1])] [5] 0
      ls3in .NEED_MORE_INPUT ls3out
      (by decide) (List.cons_ne_nil _ _) (by decide) rfl⟩

/-- Helper: `opEvents` distributes over trace concatenation. -/
theorem opEvents_append (tr1 tr2 : List OpEvent) (k : Nat) :
    opEvents (tr1 ++ tr2) k = opEvents tr1 k ++ opEvents tr2 k := by
  simp [opEvents, List.filter_append]

/-- Helper: the events of operator `k` in a one-event trace. -/
theorem opEvents_single (e : OpEvent) (k : Nat) :
    opEvents [e] k = if e.operator_idx = k then [e] else [] := by
  by_cases h : e.operator_idx = k
  · simp [opEvents, List.filter, h]
  · have hb : (e.operator_idx == k) = false := by
      simpa using h
    simp [opEvents, List.filter, hb, h]

/-- Helper: the latest event of operator `k` after appending one event. -/
theorem opEvents_last_append (tr : List OpEvent) (e : OpEvent) (k : Nat) :
    (opEvents (tr ++ [e]) k).getLast? =
      if e.operator_idx = k then some e else (opEvents tr k).getLast? := by
  by_cases h : e.operator_idx = k
  · rw [if_pos h, opEvents_append, opEvents_single, if_pos h,
      List.getLast?_concat]
  · rw [if_neg h, opEvents_append, opEvents_single, if_neg h,
      List.append_nil]

/-- Helper: appending one event preserves `SameResume` provided the event's
`prev_chunk` matches its operator's pending `HAVE_MORE_OUTPUT` event, if
any. -/
theorem sameResume_append (tr : List OpEvent) (e : OpEvent)
    (h : SameResume tr)
    (hl : ∀ eo, (opEvents tr e.operator_idx).getLast? = some eo →
      eo.result = .HAVE_MORE_OUTPUT → e.prev_chunk = eo.prev_chunk) :
    SameResume (tr ++ [e]) := by
  intro k i a b ha hb hres
  by_cases hk : e.operator_idx = k
  · rw [opEvents_append, opEvents_single, if_pos hk] at ha hb
    rcases Nat.lt_or_ge (i + 1) (opEvents tr k).length with hlt | hge
    · rw [List.get?_append (by omega)] at ha
      rw [List.get?_append hlt] at hb
      exact h k i a b ha hb hres
    · have hlen : i + 1 < (opEvents tr k).length + 1 := by
        obtain ⟨hlt1, _⟩ := List.get?_eq_some.mp hb
        simpa using hlt1
      have hie : i + 1 = (opEvents tr k).length := by omega
      have hbe : b = e := by
        rw [List.get?_append_right (by omega)] at hb
        rw [hie] at hb
        simp at hb
        exact hb.symm
      have ha' : (opEvents tr k).get? i = some a := by
        rw [List.get?_append (by omega)] at ha
        exact ha
      have hlast : (opEvents tr k).getLast? = some a := by
        rw [List.getLast?_eq_get?]
        have : (opEvents tr k).length - 1 = i := by omega
        rw [this]
        exact ha'
      rw [hbe]
      subst hk
      exact hl a hlast hres
  · rw [opEvents_append, opEvents_single, if_neg hk, List.append_nil]
      at ha hb
    exact h k i a b ha hb hres

/-- Helper: in a `SameResume` trace, a block of `m` consecutive
`HAVE_MORE_OUTPUT` events of operator `k` followed by one more entry all
carry one and the same `prev_chunk`. -/
theorem sameResume_block (tr : List OpEvent) (h : SameResume tr)
    (k i m : Nat)
    (hblk : ∀ l, l < m → ∃ e, (opEvents tr k).get? (i + l) = some e ∧
      e.result = .HAVE_MORE_OUTPUT)
    (hend : ∃ e, (opEvents tr k).get? (i + m) = some e) :
    ∃ P, ∀ l, l ≤ m → ∃ e, (opEvents tr k).get? (i + l) = some e ∧
      e.prev_chunk = P := by
  have hfirst : ∃ e, (opEvents tr k).get? (i + 0) = some e := by
    cases m with
    | zero => exact hend
    | succ m' => exact ⟨(hblk 0 (by omega)).choose,
        (hblk 0 (by omega)).choose_spec.1⟩
  obtain ⟨e0, he0⟩ := hfirst
  refine ⟨e0.prev_chunk, ?_⟩
  intro l
  induction l with
  | zero => exact fun _ => ⟨e0, he0, rfl⟩
  | succ l ihl =>
    intro hlm
    obtain ⟨el, hel, hPl⟩ := ihl (by omega)
    obtain ⟨el', hel', hres'⟩ := hblk l (by omega)
    have heleq : el' = el := by
      rw [hel] at hel'
      injection hel' with hx
      exact hx.symm
    obtain ⟨en, hen⟩ : ∃ e, (opEvents tr k).get? (i + l + 1) = some e := by
      rcases Nat.lt_or_ge (l + 1) m with hc | hc
      · obtain ⟨e, he, _⟩ := hblk (l + 1) hc
        exact ⟨e, by
          have : i + (l + 1) = i + l + 1 := by omega
          rw [← this]
          exact he⟩
      · have : l + 1 = m := by omega
        obtain ⟨e, he⟩ := hend
        exact ⟨e, by
          rw [← this] at he
          have h2 : i + (l + 1) = i + l + 1 := by omega
          rw [← h2]
          exact he⟩
    refine ⟨en, by
      have : i + (l + 1) = i + l + 1 := by omega
      rw [this]
      exact hen, ?_⟩
    have := h k (i + l) el en hel hen (by rw [← heleq]; exact hres')
    rw [this, hPl]

/-- Helper: one `executeLoop` run preserves the resumption discipline: the
trace satisfies `SameResume`, and on every non-`FINISHED` exit the stack
still records exactly the operators with a pending `HAVE_MORE_OUTPUT`,
each with the `prev_chunk` its resumption will see again. -/
theorem executeLoop_resume {σ : Type} :
    ∀ (fuel : Nat) (ops : List (Operator σ)) (input : Chunk)
      (initial current : Nat) (pre : List OpEvent) (ls : LoopState σ)
      (r : OperatorResultType) (ls' : LoopState σ),
      (∀ x ∈ ls.stack, initial < x ∧ x ≤ ops.length ∧ x < current) →
      initial ≤ current →
      List.Pairwise (fun a b => b < a) ls.stack →
      SuspendedOK input initial (pre ++ ls.trace) ls.ics ls.stack →
      PendingIn (pre ++ ls.trace) ls.stack current →
      SameResume (pre ++ ls.trace) →
      (∀ e, (opEvents (pre ++ ls.trace) (current - 1)).getLast? = some e →
        e.result = .HAVE_MORE_OUTPUT →
        e.prev_chunk = prevOf input initial ls.ics current) →
      executeLoop false ops input initial fuel current ls = .ok (r, ls') →
      SameResume (pre ++ ls'.trace) ∧
      (r ≠ .FINISHED →
        SuspendedOK input initial (pre ++ ls'.trace) ls'.ics ls'.stack ∧
        PendingIn (pre ++ ls'.trace) ls'.stack initial ∧
        (∀ x ∈ ls'.stack, initial < x ∧ x ≤ ops.length) ∧
        List.Pairwise (fun a b => b < a) ls'.stack) := by
  intro fuel
  induction fuel with
  | zero =>
    intro ops input initial current pre ls r ls' _ _ _ _ _ _ _ heq
    exact absurd heq (by simp [executeLoop])
  | succ n ih =>
    intro ops input initial current pre ls r ls' Hstk Hle Hpair Hsusp Hpend
      Hsr Hprev heq
    rw [executeLoop] at heq
    simp only [Bool.false_eq_true, if_false] at heq
    by_cases hci : current = initial
    · simp only [if_pos hci] at heq
      obtain ⟨rfl, rfl⟩ : .NEED_MORE_INPUT = r ∧ writeChunk ls current [] = ls' := by
        injection heq with h1
        injection h1 with h2 h3
        exact ⟨h2, h3⟩
      have hse : ls.stack = [] := by
        cases hs : ls.stack with
        | nil => rfl
        | cons x xs =>
          have := Hstk x (by rw [hs]; exact List.mem_cons_self x xs)
          omega
      refine ⟨by simpa using Hsr, fun _ => ?_⟩
      refine ⟨?_, ?_, ?_, ?_⟩
      · intro t ht
        rw [writeChunk_stack, hse] at ht
        cases ht
      · intro k e hlast hres
        rw [writeChunk_trace] at hlast
        rcases Hpend k e hlast hres with hmem | heqc
        · rw [hse] at hmem; cases hmem
        · rw [writeChunk_stack]
          exact Or.inr (by omega)
      · intro x hx
        rw [writeChunk_stack, hse] at hx
        cases hx
      · rw [writeChunk_stack, hse]
        exact List.Pairwise.nil
    · simp only [if_neg hci] at heq
      have hcur_gt : initial < current := by omega
      have hcur1 : 1 ≤ current := by omega
      cases hop : ops.get? (current - 1) with
      | none =>
        simp only [writeChunk_states] at heq
        rw [hop] at heq
        simp at heq
      | some op =>
        simp only [writeChunk_states] at heq
        cases hst : ls.states.get? (current - 1) with
        | none =>
          rw [hop, hst] at heq
          simp at heq
        | some opstate =>
          have hlt : current - 1 < ops.length := by
            rcases List.get?_eq_some.mp hop with ⟨h, _⟩
            exact h
          obtain ⟨execf, orc, otys, oini⟩ := op
          simp only [hop, hst] at heq
          rcases hexec : execf (if current = initial + 1 then input
            else (writeChunk ls current []).ics.getD (current - 1) [])
            opstate with ⟨rop, out, opst2⟩
          simp only [hexec] at heq
          -- the event this entry appends, and its prev_chunk
          have hprevT : (if current = initial + 1 then input
              else (writeChunk ls current []).ics.getD (current - 1) []) =
              prevOf input initial ls.ics current := by
            unfold prevOf
            by_cases h1 : current = initial + 1
            · rw [if_pos h1, if_pos h1]
            · rw [if_neg h1, if_neg h1,
                writeChunk_ics_getD ls current (current - 1) []
                  (by omega)]
          have hSR' : SameResume ((pre ++ ls.trace) ++
              [⟨current - 1, (if current = initial + 1 then input
                else (writeChunk ls current []).ics.getD (current - 1) []),
                rop, out⟩]) := by
            refine sameResume_append _ _ Hsr ?_
            intro eo hlasto hHMOo
            dsimp only [] at hlasto ⊢
            rw [hprevT]
            exact (Hprev eo hlasto hHMOo).symm
          have hlast' : ∀ k, (opEvents ((pre ++ ls.trace) ++
              [⟨current - 1, (if current = initial + 1 then input
                else (writeChunk ls current []).ics.getD (current - 1) []),
                rop, out⟩]) k).getLast? =
              if current - 1 = k then some ⟨current - 1,
                (if current = initial + 1 then input
                  else (writeChunk ls current []).ics.getD (current - 1) []),
                rop, out⟩
              else (opEvents (pre ++ ls.trace) k).getLast? := by
            intro k
            exact opEvents_last_append _ _ k
          by_cases hfin : rop = .FINISHED
          · subst hfin
            rw [if_pos rfl] at heq
            by_cases hout : out = []
            · rw [if_pos hout] at heq
              simp only [writeChunk_stack, writeChunk_trace, writeChunk_cached,
                reduceCtorEq, if_false] at heq
              obtain ⟨rfl, rfl⟩ : OperatorResultType.FINISHED = r ∧ _ = ls' := by
                injection heq with h1
                injection h1 with h2 h3
                exact ⟨h2, h3⟩
              refine ⟨by simpa using hSR', fun h => absurd rfl h⟩
            · rw [if_neg hout] at heq
              cases heq
          · rw [if_neg hfin] at heq
            rcases hcache : cacheChunk (if current = initial + 1 then input
                else (writeChunk ls current []).ics.getD (current - 1) [])
                out ((writeChunk ls current []).cached.getD (current - 1) none)
              with ⟨cur, slot⟩
            simp only [hcache] at heq
            simp only [writeChunk_stack, writeChunk_trace, writeChunk_cached,
              writeChunk_states] at heq
            set EV : OpEvent := ⟨current - 1,
              (if current = initial + 1 then input
                else (writeChunk ls current []).ics.getD (current - 1) []),
              rop, out⟩ with hEV
            set S2 : List Nat := (if rop = OperatorResultType.HAVE_MORE_OUTPUT
              then current :: ls.stack else ls.stack) with hS2
            set RR : LoopState σ := ⟨(writeChunk ls current []).ics,
              (writeChunk ls current []).res,
              ls.states.set (current - 1) opst2,
              ls.cached.set (current - 1) slot,
              S2, ls.trace ++ [EV]⟩ with hRR
            have hicsD : ∀ j, j ≠ current →
                (writeChunk RR current cur).ics.getD j [] =
                  ls.ics.getD j [] := by
              intro j hj
              rw [writeChunk_ics_getD RR current j cur hj]
              show (writeChunk ls current []).ics.getD j [] =
                ls.ics.getD j []
              exact writeChunk_ics_getD ls current j [] hj
            have hstk2 : ∀ x ∈ S2, initial < x ∧ x ≤ ops.length ∧
                x ≤ current := by
              intro x hx
              rw [hS2] at hx
              by_cases hr : rop = OperatorResultType.HAVE_MORE_OUTPUT
              · rw [if_pos hr] at hx
                rcases List.mem_cons.mp hx with rfl | hx
                · exact ⟨hcur_gt, by omega, le_refl _⟩
                · have := Hstk x hx
                  exact ⟨this.1, this.2.1, by omega⟩
              · rw [if_neg hr] at hx
                have := Hstk x hx
                exact ⟨this.1, this.2.1, by omega⟩
            have hpair2 : List.Pairwise (fun a b => b < a) S2 := by
              rw [hS2]
              by_cases hr : rop = OperatorResultType.HAVE_MORE_OUTPUT
              · rw [if_pos hr]
                exact List.Pairwise.cons (fun b hb => (Hstk b hb).2.2) Hpair
              · rw [if_neg hr]
                exact Hpair
            have hpend2 : ∀ k e,
                (opEvents ((pre ++ ls.trace) ++ [EV]) k).getLast? = some e →
                e.result = .HAVE_MORE_OUTPUT → (k + 1) ∈ S2 := by
              intro k e hl hres
              rw [hlast' k] at hl
              by_cases hk : current - 1 = k
              · rw [if_pos hk] at hl
                injection hl with he
                rw [← he] at hres
                have hrop : rop = .HAVE_MORE_OUTPUT := hres
                rw [hS2, if_pos hrop]
                have : k + 1 = current := by omega
                rw [this]
                exact List.mem_cons_self current ls.stack
              · rw [if_neg hk] at hl
                rcases Hpend k e hl hres with hmem | heqc
                · rw [hS2]
                  by_cases hr : rop = OperatorResultType.HAVE_MORE_OUTPUT
                  · rw [if_pos hr]
                    exact List.mem_cons_of_mem current hmem
                  · rw [if_neg hr]
                    exact hmem
                · exact absurd (by omega) hk
            have hsusp2 : SuspendedOK input initial ((pre ++ ls.trace) ++ [EV])
                ((writeChunk RR current cur).ics) S2 := by
              intro t ht
              by_cases htc : t = current
              · subst htc
                have hrop : rop = .HAVE_MORE_OUTPUT := by
                  by_contra hnr
                  rw [hS2, if_neg hnr] at ht
                  have := Hstk t ht
                  omega
                refine ⟨EV, ?_, hrop, ?_⟩
                · rw [hlast' (t - 1), if_pos rfl]
                · show (if t = initial + 1 then input
                      else (writeChunk ls t []).ics.getD (t - 1) []) =
                    prevOf input initial ((writeChunk RR t cur).ics) t
                  rw [hprevT]
                  unfold prevOf
                  by_cases h1 : t = initial + 1
                  · rw [if_pos h1, if_pos h1]
                  · rw [if_neg h1, if_neg h1, hicsD (t - 1) (by omega)]
              · have htm : t ∈ ls.stack := by
                  rw [hS2] at ht
                  by_cases hr : rop = OperatorResultType.HAVE_MORE_OUTPUT
                  · rw [if_pos hr] at ht
                    rcases List.mem_cons.mp ht with h | h
                    · exact absurd h htc
                    · exact h
                  · rw [if_neg hr] at ht
                    exact ht
                obtain ⟨e, hle, hHMO, hpe⟩ := Hsusp t htm
                have htlt := Hstk t htm
                refine ⟨e, ?_, hHMO, ?_⟩
                · rw [hlast' (t - 1),
                    if_neg (by omega : ¬ current - 1 = t - 1)]
                  exact hle
                · rw [hpe]
                  unfold prevOf
                  by_cases h1 : t = initial + 1
                  · rw [if_pos h1, if_pos h1]
                  · rw [if_neg h1, if_neg h1, hicsD (t - 1) (by omega)]
            have hassoc : (pre ++ ls.trace) ++ [EV] =
                pre ++ (ls.trace ++ [EV]) := List.append_assoc pre ls.trace [EV]
            rw [hassoc] at hSR' hpend2 hsusp2
            by_cases hcur0 : cur = []
            · rw [if_pos hcur0] at heq
              rcases goToSource_cases S2 initial with
                ⟨hs2, hgo⟩ | ⟨t, rest, hs2, hgo⟩
              · rw [hgo] at heq
                dsimp only [] at heq
                rw [if_neg (by omega : ¬ initial < initial)] at heq
                refine ih ops input initial initial pre _ r ls'
                  (by intro x hx; cases hx) (Nat.le_refl _)
                  List.Pairwise.nil
                  (by intro t ht; cases ht)
                  ?_ hSR' ?_ heq
                · intro k e hl hres
                  have hmem := hpend2 k e hl hres
                  rw [hs2] at hmem
                  cases hmem
                · intro e hl hres
                  have hmem := hpend2 (initial - 1) e hl hres
                  rw [hs2] at hmem
                  cases hmem
              · rw [hgo] at heq
                dsimp only [] at heq
                have htS2 : t ∈ S2 := by
                  rw [hs2]; exact List.mem_cons_self t rest
                have htb := hstk2 t htS2
                rw [if_neg (by omega : ¬ t < initial)] at heq
                have hpt : List.Pairwise (fun a b => b < a) (t :: rest) := by
                  rw [← hs2]; exact hpair2
                refine ih ops input initial t pre _ r ls'
                  ?_ (by omega) (List.pairwise_cons.mp hpt).2 ?_ ?_ hSR' ?_ heq
                · intro x hx
                  have hxs : x ∈ S2 := by
                    rw [hs2]; exact List.mem_cons_of_mem t hx
                  exact ⟨(hstk2 x hxs).1, (hstk2 x hxs).2.1,
                    (List.pairwise_cons.mp hpt).1 x hx⟩
                · intro u hu
                  exact hsusp2 u (by rw [hs2]; exact List.mem_cons_of_mem t hu)
                · intro k e hl hres
                  have := hpend2 k e hl hres
                  rw [hs2] at this
                  rcases List.mem_cons.mp this with h | h
                  · exact Or.inr h
                  · exact Or.inl h
                · intro e hl hres
                  obtain ⟨e0, hle0, hHMO0, hpe0⟩ := hsusp2 t htS2
                  rw [hle0] at hl
                  injection hl with he
                  rw [← he]
                  exact hpe0
            · rw [if_neg hcur0] at heq
              by_cases hlen : ops.length < current + 1
              · rw [if_pos hlen] at heq
                obtain ⟨rfl, rfl⟩ : (if S2 = []
                    then OperatorResultType.NEED_MORE_INPUT
                    else OperatorResultType.HAVE_MORE_OUTPUT) = r ∧
                    writeChunk RR current cur = ls' := by
                  injection heq with h1
                  injection h1 with h2 h3
                  exact ⟨h2, h3⟩
                constructor
                · show SameResume (pre ++ (writeChunk RR current cur).trace)
                  rw [writeChunk_trace]
                  exact hSR'
                · intro _
                  refine ⟨?_, ?_, ?_, ?_⟩
                  · show SuspendedOK input initial
                      (pre ++ (writeChunk RR current cur).trace)
                      ((writeChunk RR current cur).ics)
                      ((writeChunk RR current cur).stack)
                    rw [writeChunk_trace, writeChunk_stack]
                    exact hsusp2
                  · show PendingIn (pre ++ (writeChunk RR current cur).trace)
                      ((writeChunk RR current cur).stack) initial
                    rw [writeChunk_trace, writeChunk_stack]
                    intro k e hl hres
                    exact Or.inl (hpend2 k e hl hres)
                  · intro x hx
                    rw [writeChunk_stack] at hx
                    exact ⟨(hstk2 x hx).1, (hstk2 x hx).2.1⟩
                  · rw [writeChunk_stack]
                    exact hpair2
              · rw [if_neg hlen] at heq
                refine ih ops input initial (current + 1) pre _ r ls'
                  ?_ (by omega) ?_ ?_ ?_ ?_ ?_ heq
                · intro x hx
                  rw [writeChunk_stack] at hx
                  exact ⟨(hstk2 x hx).1, (hstk2 x hx).2.1, by
                    have := (hstk2 x hx).2.2
                    omega⟩
                · rw [writeChunk_stack]
                  exact hpair2
                · show SuspendedOK input initial
                    (pre ++ (writeChunk RR current cur).trace)
                    ((writeChunk RR current cur).ics)
                    ((writeChunk RR current cur).stack)
                  rw [writeChunk_trace, writeChunk_stack]
                  exact hsusp2
                · show PendingIn (pre ++ (writeChunk RR current cur).trace)
                    ((writeChunk RR current cur).stack) (current + 1)
                  rw [writeChunk_trace, writeChunk_stack]
                  intro k e hl hres
                  exact Or.inl (hpend2 k e hl hres)
                · show SameResume (pre ++ (writeChunk RR current cur).trace)
                  rw [writeChunk_trace]
                  exact hSR'
                · intro e hl hres
                  rw [writeChunk_trace] at hl
                  have := hpend2 current e hl hres
                  have := hstk2 (current + 1) this
                  omega

/-- Helper: the resumption discipline lifted to one `Execute` call
(`pipelineExecute`) on a non-empty input. -/
theorem pipelineExecute_resume {σ : Type} (fuel : Nat)
    (ops : List (Operator σ)) (input : Chunk) (initial : Nat)
    (pre : List OpEvent) (ls : LoopState σ) (r : OperatorResultType)
    (ls' : LoopState σ)
    (Hin : input ≠ [])
    (Hstk : ∀ x ∈ ls.stack, initial < x ∧ x ≤ ops.length)
    (Hpair : List.Pairwise (fun a b => b < a) ls.stack)
    (Hsusp : SuspendedOK input initial (pre ++ ls.trace) ls.ics ls.stack)
    (Hpend : ∀ k e, (opEvents (pre ++ ls.trace) k).getLast? = some e →
      e.result = .HAVE_MORE_OUTPUT → (k + 1) ∈ ls.stack)
    (Hsr : SameResume (pre ++ ls.trace))
    (heq : pipelineExecute fuel false ops input initial ls = .ok (r, ls')) :
    SameResume (pre ++ ls'.trace) ∧
    (r ≠ .FINISHED →
      SuspendedOK input initial (pre ++ ls'.trace) ls'.ics ls'.stack ∧
      PendingIn (pre ++ ls'.trace) ls'.stack initial ∧
      (∀ x ∈ ls'.stack, initial < x ∧ x ≤ ops.length) ∧
      List.Pairwise (fun a b => b < a) ls'.stack) := by
  rw [pipelineExecute] at heq
  rw [if_neg (by simpa [List.length_eq_zero] using Hin)] at heq
  by_cases hopse : ops.isEmpty
  · rw [if_pos hopse] at heq; cases heq
  · rw [if_neg hopse] at heq
    rcases goToSource_cases ls.stack initial with ⟨hs, hgo⟩ | ⟨t, rest, hs, hgo⟩
    · rw [hgo] at heq
      dsimp only [] at heq
      rw [if_neg (by omega : ¬ initial < initial), if_pos rfl] at heq
      by_cases hlen : ops.length < initial + 1
      · rw [if_pos hlen] at heq
        obtain ⟨rfl, rfl⟩ : OperatorResultType.NEED_MORE_INPUT = r ∧
            { ls with stack := [], res := input } = ls' := by
          injection heq with h1
          injection h1 with h2 h3
          exact ⟨h2, h3⟩
        refine ⟨Hsr, fun _ => ⟨?_, ?_, ?_, ?_⟩⟩
        · intro t ht; cases ht
        · intro k e hl hres
          have := Hpend k e hl hres
          rw [hs] at this
          cases this
        · intro x hx; cases hx
        · exact List.Pairwise.nil
      · rw [if_neg hlen] at heq
        refine executeLoop_resume fuel ops input initial (initial + 1) pre
          _ r ls' ?_ (by omega) ?_ ?_ ?_ ?_ ?_ heq
        · intro x hx
          simp at hx
        · exact List.Pairwise.nil
        · intro u hu
          simp at hu
        · intro k e hl hres
          have := Hpend k e hl hres
          rw [hs] at this
          cases this
        · exact Hsr
        · intro e hl hres
          have := Hpend initial e hl hres
          rw [hs] at this
          cases this
    · rw [hgo] at heq
      dsimp only [] at heq
      have htm : t ∈ ls.stack := by
        rw [hs]; exact List.mem_cons_self t rest
      have htb := Hstk t htm
      rw [if_neg (by omega : ¬ t < initial),
        if_neg (by omega : ¬ t = initial)] at heq
      by_cases hlen : ops.length < t
      · exact absurd hlen (by omega)
      · rw [if_neg hlen] at heq
        have hpt : List.Pairwise (fun a b => b < a) (t :: rest) := by
          rw [← hs]; exact Hpair
        refine executeLoop_resume fuel ops input initial t pre
          _ r ls' ?_ (by omega) (List.pairwise_cons.mp hpt).2 ?_ ?_ ?_ ?_ heq
        · intro x hx
          have hxs : x ∈ ls.stack := by
            rw [hs]; exact List.mem_cons_of_mem t hx
          exact ⟨(Hstk x hxs).1, (Hstk x hxs).2,
            (List.pairwise_cons.mp hpt).1 x hx⟩
        · intro u hu
          exact Hsusp u (by rw [hs]; exact List.mem_cons_of_mem t hu)
        · intro k e hl hres
          have := Hpend k e hl hres
          rw [hs] at this
          rcases List.mem_cons.mp this with h | h
          · exact Or.inr h
          · exact Or.inl h
        · exact Hsr
        · intro e hl hres
          obtain ⟨e0, hle0, hHMO0, hpe0⟩ := Hsusp t htm
          rw [hle0] at hl
          injection hl with he
          rw [← he]
          exact hpe0

/-- Helper: the resumption discipline through the `ExecutePushInternal`
push loop at `initial_idx = 0`: the accumulated trace always satisfies
`SameResume`, and a `NEED_MORE_INPUT` exit leaves no operator with a
pending un-resumed `HAVE_MORE_OUTPUT`. -/
theorem pushLoop_resume {σ τ ρ : Type} (pipe : Pipeline σ τ ρ) (sink : Sink τ)
    (input : Chunk) (Hin : input ≠ []) (Hops : pipe.operators ≠ []) :
    ∀ (fuel : Nat) (st : ExecState σ τ ρ) (tr : List OpEvent)
      (sunk : List Chunk) (r : OperatorResultType) (st' : ExecState σ τ ρ)
      (tr' : List OpEvent) (sunk' : List Chunk),
      (∀ x ∈ st.in_process_operators, 0 < x ∧ x ≤ pipe.operators.length) →
      List.Pairwise (fun a b => b < a) st.in_process_operators →
      SuspendedOK input 0 tr st.intermediate_chunks st.in_process_operators →
      (∀ k e, (opEvents tr k).getLast? = some e →
        e.result = .HAVE_MORE_OUTPUT → (k + 1) ∈ st.in_process_operators) →
      SameResume tr →
      pushLoop false pipe sink input 0 fuel st tr sunk =
        .ok (r, st', tr', sunk') →
      SameResume tr' ∧ (r = .NEED_MORE_INPUT → NoPending tr') := by
  obtain ⟨sfn, som, sil⟩ := sink
  intro fuel
  induction fuel with
  | zero =>
    intro st tr sunk r st' tr' sunk' _ _ _ _ _ heq
    exact absurd heq (by simp [pushLoop])
  | succ n ih =>
    intro st tr sunk r st' tr' sunk' Hstk Hpair Hsusp Hpend Hsr heq
    rw [pushLoop] at heq
    have hopse : pipe.operators.isEmpty = false := by
      cases hops : pipe.operators with
      | nil => exact absurd hops Hops
      | cons a l => rfl
    rw [hopse] at heq
    simp only [Bool.false_eq_true, if_false] at heq
    cases hpe : pipelineExecute n false pipe.operators input 0
        (toLoop { st with final_chunk := [] }) with
    | error e => rw [hpe] at heq; cases heq
    | ok rls =>
      obtain ⟨r0, ls⟩ := rls
      rw [hpe] at heq
      dsimp only [fromLoop] at heq
      have htr0 : tr ++ (toLoop ({ st with final_chunk := [] } :
          ExecState σ τ ρ)).trace = tr := by
        simp [toLoop]
      have hres := pipelineExecute_resume n pipe.operators input 0 tr
        (toLoop { st with final_chunk := [] }) r0 ls Hin
        (by intro x hx; exact Hstk x hx)
        Hpair
        (by rw [htr0]; exact Hsusp)
        (by rw [htr0]; exact Hpend)
        (by rw [htr0]; exact Hsr)
        hpe
      have hspec := pipelineExecute_spec n pipe.operators input 0
        (toLoop { st with final_chunk := [] }) r0 ls Hin
        (by intro x hx; exact ⟨(Hstk x hx).1, (Hstk x hx).2⟩) hpe
      by_cases hr0 : r0 = .FINISHED
      · rw [if_pos hr0] at heq
        obtain ⟨rfl, rfl, rfl⟩ :
            OperatorResultType.FINISHED = r ∧ _ = st' ∧ tr ++ ls.trace = tr' := by
          injection heq with h1
          injection h1 with h2 h3
          injection h3 with h4 h5
          injection h5 with h6 h7
          exact ⟨h2, h4, h6⟩
        exact ⟨hres.1, fun h => by cases h⟩
      · rw [if_neg hr0] at heq
        obtain ⟨hsusp1, hpend1, hstk1, hpair1⟩ := hres.2 hr0
        have hnmi_stack : r0 = .NEED_MORE_INPUT → ls.stack = [] := by
          intro h
          obtain ⟨_, _, _, new, _, _, hNF⟩ := hspec
          exact ((hNF hr0).2.2).mp h
        by_cases hsc : ls.res.length > 0
        · rw [if_pos hsc] at heq
          cases hlss : st.local_sink_state with
          | none => rw [hlss] at heq; cases heq
          | some lss =>
            rw [hlss] at heq
            dsimp only [] at heq
            rcases hsk : sfn ls.res lss with ⟨sres, lss2⟩
            simp only [hsk] at heq
            by_cases hsf : sres = .FINISHED
            · rw [if_pos hsf] at heq
              obtain ⟨rfl, rfl⟩ :
                  OperatorResultType.FINISHED = r ∧ tr ++ ls.trace = tr' := by
                injection heq with h1
                injection h1 with h2 h3
                injection h3 with h4 h5
                injection h5 with h6 h7
                exact ⟨h2, h6⟩
              exact ⟨hres.1, fun h => by cases h⟩
            · rw [if_neg hsf] at heq
              by_cases hnmi : r0 = .NEED_MORE_INPUT
              · rw [if_pos hnmi] at heq
                obtain ⟨rfl, rfl⟩ :
                    OperatorResultType.NEED_MORE_INPUT = r ∧ tr ++ ls.trace = tr' := by
                  injection heq with h1
                  injection h1 with h2 h3
                  injection h3 with h4 h5
                  injection h5 with h6 h7
                  exact ⟨h2, h6⟩
                refine ⟨hres.1, fun _ => ?_⟩
                intro k e hl hHMO
                rcases hpend1 k e hl hHMO with hmem | habs
                · rw [hnmi_stack hnmi] at hmem
                  cases hmem
                · exact absurd habs (by omega)
              · rw [if_neg hnmi] at heq
                refine ih _ _ _ _ _ _ _ ?_ ?_ ?_ ?_ hres.1 heq
                · intro x hx
                  exact hstk1 x hx
                · exact hpair1
                · intro t ht
                  exact hsusp1 t ht
                · intro k e hl hHMO
                  rcases hpend1 k e hl hHMO with hmem | habs
                  · exact hmem
                  · exact absurd habs (by omega)
        · rw [if_neg hsc] at heq
          by_cases hnmi : r0 = .NEED_MORE_INPUT
          · rw [if_pos hnmi] at heq
            obtain ⟨rfl, rfl⟩ :
                OperatorResultType.NEED_MORE_INPUT = r ∧ tr ++ ls.trace = tr' := by
              injection heq with h1
              injection h1 with h2 h3
              injection h3 with h4 h5
              injection h5 with h6 h7
              exact ⟨h2, h6⟩
            refine ⟨hres.1, fun _ => ?_⟩
            intro k e hl hHMO
            rcases hpend1 k e hl hHMO with hmem | habs
            · rw [hnmi_stack hnmi] at hmem
              cases hmem
            · exact absurd habs (by omega)
          · rw [if_neg hnmi] at heq
            refine ih _ _ _ _ _ _ _ ?_ ?_ ?_ ?_ hres.1 heq
            · intro x hx
              exact hstk1 x hx
            · exact hpair1
            · intro t ht
              exact hsusp1 t ht
            · intro k e hl hHMO
              rcases hpend1 k e hl hHMO with hmem | habs
              · exact hmem
              · exact absurd habs (by omega)

/-- C1: for any pipeline and any operator in it, the push-mode `Execute`
state machine re-enters an operator returning `HAVE_MORE_OUTPUT` `m`
consecutive times before `NEED_MORE_INPUT` exactly `m + 1` times, each time
with the same `prev_chunk` contents: the operator's index is pushed onto
`in_process_operators` on `HAVE_MORE_OUTPUT` and popped by `GoToSource` on
resumption, and until then nothing overwrites the chunk it reads.  The
trace of one `ExecutePush` satisfies `SameResume` (consecutive events of
one operator after a `HAVE_MORE_OUTPUT` carry the same `prev_chunk`), a
`NEED_MORE_INPUT` exit leaves no `HAVE_MORE_OUTPUT` un-resumed, and any
`m` consecutive `HAVE_MORE_OUTPUT` entries of operator `k` followed by one
more entry are `m + 1` entries against one and the same `prev_chunk`. -/
theorem claim_C1_resumption {σ τ ρ : Type} (fuel : Nat)
    (pipe : Pipeline σ τ ρ) (st : ExecState σ τ ρ) (input : Chunk)
    (r : OperatorResultType) (st' : ExecState σ τ ρ) (tr : List OpEvent)
    (sunk : List Chunk)
    (Hin : input ≠ []) (Hops : pipe.operators ≠ [])
    (Hstk : st.in_process_operators = [])
    (heq : executePush fuel false pipe st input = .ok (r, st', tr, sunk)) :
    SameResume tr ∧
    (r = .NEED_MORE_INPUT → NoPending tr) ∧
    (∀ k i m,
      (∀ l, l < m → ∃ e, (opEvents tr k).get? (i + l) = some e ∧
        e.result = .HAVE_MORE_OUTPUT) →
      (∃ e, (opEvents tr k).get? (i + m) = some e ∧
        e.result = .NEED_MORE_INPUT) →
      ∃ P, ∀ l, l ≤ m → ∃ e, (opEvents tr k).get? (i + l) = some e ∧
        e.prev_chunk = P) := by
  rw [executePush, executePushInternal] at heq
  cases hsk : pipe.sink with
  | none => rw [hsk] at heq; cases heq
  | some sink =>
    rw [hsk] at heq
    dsimp only [] at heq
    rw [if_neg (by simpa [List.length_eq_zero] using Hin)] at heq
    have hmain := pushLoop_resume pipe sink input Hin Hops fuel st [] []
      r st' tr sunk
      (by rw [Hstk]; intro x hx; cases hx)
      (by rw [Hstk]; exact List.Pairwise.nil)
      (by rw [Hstk]; intro t ht; cases ht)
      (by intro k e hl hres
          exact absurd hl (by simp [opEvents]))
      (by intro k i e e' he he' hres
          exact absurd he (by simp [opEvents]))
      heq
    refine ⟨hmain.1, hmain.2, ?_⟩
    intro k i m hblk hend
    exact sameResume_block tr hmain.1 k i m hblk ⟨hend.choose, hend.choose_spec.1⟩


/-- Witness for C1: in the two-operator pipeline `pipeTwo`, the second
operator (index 1) returns `HAVE_MORE_OUTPUT` once and is re-entered
(2 = m + 1 entries) against the same intermediate `prev_chunk = [11]`,
which is not the pipeline input `[1]`. -/
theorem claim_C1_resumption_witness :
    (([1] : Chunk) ≠ [] ∧
      pipeTwo.operators ≠ [] ∧
      (initExecState pipeTwo).in_process_operators = [] ∧
      executePush 10 false pipeTwo (initExecState pipeTwo) [1] =
        .ok (.NEED_MORE_INPUT,
          { intermediate_chunks := [[], [11]]
            final_chunk := [6]
            intermediate_states := [0, 2]
            cached_chunks := [none, none]
            in_process_operators := []
            finished_processing := false
            finalized := false
            local_sink_state := some 2
            local_source_state := () },
          [⟨0, [1], .NEED_MORE_INPUT, [11]⟩,
            ⟨1, [11], .HAVE_MORE_OUTPUT, [5]⟩,
            ⟨1, [11], .NEED_MORE_INPUT, [6]⟩], [[5], [6]])) ∧
    (SameResume [⟨0, [1], .NEED_MORE_INPUT, [11]⟩,
        ⟨1, [11], .HAVE_MORE_OUTPUT, [5]⟩,
        ⟨1, [11], .NEED_MORE_INPUT, [6]⟩] ∧
      (OperatorResultType.NEED_MORE_INPUT = .NEED_MORE_INPUT →
        NoPending [⟨0, [1], .NEED_MORE_INPUT, [11]⟩,
          ⟨1, [11], .HAVE_MORE_OUTPUT, [5]⟩,
          ⟨1, [11], .NEED_MORE_INPUT, [6]⟩]) ∧
      (∀ k i m,
        (∀ l, l < m → ∃ e, (opEvents [⟨0, [1], .NEED_MORE_INPUT, [11]⟩,
            ⟨1, [11], .HAVE_MORE_OUTPUT, [5]⟩,
            ⟨1, [11], .NEED_MORE_INPUT, [6]⟩] k).get? (i + l) = some e ∧
          e.result = .HAVE_MORE_OUTPUT) →
        (∃ e, (opEvents [⟨0, [1], .NEED_MORE_INPUT, [11]⟩,
            ⟨1, [11], .HAVE_MORE_OUTPUT, [5]⟩,
            ⟨1, [11], .NEED_MORE_INPUT, [6]⟩] k).get? (i + m) = some e ∧
          e.result = .NEED_MORE_INPUT) →
        ∃ P, ∀ l, l ≤ m → ∃ e,
          (opEvents [⟨0, [1], .NEED_MORE_INPUT, [11]⟩,
            ⟨1, [11], .HAVE_MORE_OUTPUT, [5]⟩,
            ⟨1, [11], .NEED_MORE_INPUT, [6]⟩] k).get? (i + l) = some e ∧
          e.prev_chunk = P)) :=
  ⟨⟨by decide, List.cons_ne_nil _ _, rfl, rfl⟩,
    claim_C1_resumption 10 pipeTwo (initExecState pipeTwo) [1]
      .NEED_MORE_INPUT
      { intermediate_chunks := [[], [11]]
        final_chunk := [6]
        intermediate_states := [0, 2]
        cached_chunks := [none, none]
        in_process_operators := []
        finished_processing := false
        finalized := false
        local_sink_state := some 2
        local_source_state := () }
      [⟨0, [1], .NEED_MORE_INPUT, [11]⟩,
        ⟨1, [11], .HAVE_MORE_OUTPUT, [5]⟩,
        ⟨1, [11], .NEED_MORE_INPUT, [6]⟩] [[5], [6]]
      (by decide) (List.cons_ne_nil _ _) rfl rfl⟩

end DuckDB
